import Mathlib

/-!
# A shallow embedding of the tracemem core (tracemem_core) in Lean 4

This file models, directly from the Python sources under
`tracemem_core/src/tracemem_core/`, the data model and operations of the
TraceMem engine:

* `extractors.py` — URI canonicalization (`_canonicalize_file_uri`) and the
  `DefaultResourceExtractor`;
* `tracemem.py` — the ingestion state machine (`add_message`,
  `_add_user_message`, `_add_assistant_message`, `_process_tool_call`,
  `import_trace`);
* `storage/graph/kuzu_store.py` — the reference graph backend's read and
  write operations, modelled as pure functions over an in-memory graph state
  (node/edge lists in creation order);
* `storage/vector/lance.py` — the vector backend's `search` pipeline
  (hybrid ranking with an RRF reranker) and `update_last_accessed`;
* `retrieval/hybrid.py` — `search`, `get_context`,
  `get_conversations_for_resource`, `get_trajectory` and
  `_parse_trajectory`.

Modelling conventions:

* Opaque UUIDs and wall-clock timestamps are both drawn from a single
  per-session counter (`TMState.fresh`); each allocation yields a strictly
  larger value, which mirrors uuid4 uniqueness and the monotone
  microsecond-resolution UTC clock the source relies on for
  `ORDER BY created_at`.
* SHA-256 and the embedder are external pure functions to the engine; they
  are threaded as parameters (`Ctx.hash`, `Ctx.embed`).  The engine only
  ever compares hash strings for equality.
* LanceDB's dense and lexical scorers are likewise threaded as score
  functions; the RRF reranker (LanceDB's default, K = 60) is modelled
  concretely.
* Python `urllib.parse.urlparse` is modelled on the scheme/netloc/path
  fragment actually exercised by file and plain URIs (no query/fragment
  splitting; the inputs of interest contain neither `?` nor `#`), and
  `pathlib.Path.resolve` as purely lexical normalization against a `cwd`
  (no symlinks).
-/

namespace TMem

/-! ## JSON-like tool-call argument values (`dict[str, Any]` in the source) -/

inductive JVal where
  | jstr : String → JVal
  | jint : Int → JVal
  | jbool : Bool → JVal
  | jnull : JVal
  | jarr : List JVal → JVal
  | jobj : List (String × JVal) → JVal
deriving Repr

/-- Python truthiness of a JSON-like value (`if args[arg]:`). -/
def JVal.truthy : JVal → Bool
  | .jstr s => !(s = "")
  | .jint n => !(n = 0)
  | .jbool b => b
  | .jnull => false
  | .jarr xs => !xs.isEmpty
  | .jobj fs => !fs.isEmpty

/-- A tool-call argument map (`dict[str, Any]`), keys unique by construction
in Python; lookup takes the first binding. -/
abbrev Args := List (String × JVal)

def Args.get (args : Args) (k : String) : Option JVal :=
  (args.find? (fun p => p.1 = k)).map (·.2)

/-! ## String utilities (List Char based, to keep kernel evaluation cheap) -/

/-- Split a character list on a separator, like Python `str.split(sep)`. -/
def chSplit (sep : Char) : List Char → List (List Char)
  | [] => [[]]
  | c :: cs =>
      let r := chSplit sep cs
      if c = sep then [] :: r
      else
        match r with
        | [] => [[c]]
        | g :: gs => (c :: g) :: gs

def strSplit (sep : Char) (s : String) : List String :=
  (chSplit sep s.data).map (fun cs => ⟨cs⟩)

def strJoin (sep : String) : List String → String
  | [] => ""
  | [x] => x
  | x :: y :: xs => x ++ sep ++ strJoin sep (y :: xs)

/-- `p` is a literal prefix of `s` (Python `str.startswith`). -/
def strStarts (p s : String) : Bool := p.data.isPrefixOf s.data

/-! ## urlparse (the scheme/netloc/path fragment used by the source) -/

def isSchemeChar (c : Char) : Bool :=
  c.isAlpha || c.isDigit || c = '+' || c = '-' || c = '.'

/-- Split a character list at the first `':'`: returns the characters before
it and the characters after it, or `none` when there is no `':'`. -/
def splitSchemeAux : List Char → Option (List Char × List Char)
  | [] => none
  | c :: cs =>
      if c = ':' then some ([], cs)
      else
        match splitSchemeAux cs with
        | some (pre, rest) => some (c :: pre, rest)
        | none => none

structure UrlParts where
  scheme : String
  netloc : String
  path : String
deriving Repr, DecidableEq

/-- `urllib.parse.urlparse`, restricted to the scheme/netloc/path split that
the canonicalizer consumes (query/fragment splitting is not modelled; the
URIs of interest contain neither `?` nor `#`).  A scheme is recognized when
a nonempty run of scheme characters starting with a letter precedes the
first `':'`; the scheme is lowercased.  A netloc follows a leading `"//"`
and extends to the next `'/'`. -/
def urlparseLite (u : String) : UrlParts :=
  let sc : List Char × List Char :=
    match splitSchemeAux u.data with
    | some (pre, rest) =>
        match pre with
        | [] => ([], u.data)
        | c0 :: _ =>
            if c0.isAlpha && pre.all isSchemeChar then (pre.map Char.toLower, rest)
            else ([], u.data)
    | none => ([], u.data)
  match sc.2 with
  | '/' :: '/' :: r =>
      ⟨⟨sc.1⟩, ⟨r.takeWhile (fun c => !(c = '/'))⟩, ⟨r.dropWhile (fun c => !(c = '/'))⟩⟩
  | _ => ⟨⟨sc.1⟩, "", ⟨sc.2⟩⟩

/-! ## pathlib-style lexical path resolution -/

/-- Accumulator pass of path-segment normalization: drop empty and `"."`
segments, let `".."` pop the previous segment. -/
def normAcc (acc : List String) : List String → List String
  | [] => acc
  | seg :: rest =>
      if seg = "" || seg = "." then normAcc acc rest
      else if seg = ".." then normAcc acc.dropLast rest
      else normAcc (acc ++ [seg]) rest

/-- Normalize path segments (the lexical part of `Path.resolve`). -/
def normSegs (segs : List String) : List String := normAcc [] segs

/-- Resolve a path string to normalized absolute segments, against a current
working directory given as (already normalized) segments.  Mirrors
`Path(p).resolve()` on a symlink-free filesystem. -/
def resolveSegs (cwd : List String) (p : String) : List String :=
  let comps := strSplit '/' p
  if strStarts "/" p then normSegs comps else normSegs (cwd ++ comps)

/-- Render absolute segments as `str(Path(...))`: `"/a/b"`, `"/"` for root. -/
def renderAbs (segs : List String) : String := "/" ++ strJoin "/" segs

/-- Render root-relative segments as `str(path.relative_to(root))`:
`"a/b"`, or `"."` when the path equals the root. -/
def renderRel (segs : List String) : String :=
  match segs with
  | [] => "."
  | _ => strJoin "/" segs

/-! ## `_canonicalize_file_uri` (extractors.py) -/

/-- `_canonicalize_file_uri(uri, root)` from `extractors.py`.

* Non-`file` URIs (a nonempty scheme other than `file`) pass through as-is.
* Otherwise the file path is `parsed.path` when the scheme is `file`, else
  the raw string; it is resolved to an absolute, normalized path.
* With a `root`: if the resolved path lies under the resolved root, emit
  `file://<relative path>`; otherwise (`ValueError` branch)
  `file://<absolute path>`.
* Without a root: `file://<absolute path>`. -/
def canonicalizeFileUri (cwd : List String) (uri : String) (root : Option String) : String :=
  let parsed := urlparseLite uri
  if parsed.scheme ≠ "" && parsed.scheme ≠ "file" then uri
  else
    let p := if parsed.scheme = "file" then parsed.path else uri
    let segs := resolveSegs cwd p
    match root with
    | some r =>
        let rsegs := resolveSegs cwd r
        if rsegs.isPrefixOf segs then "file://" ++ renderRel (segs.drop rsegs.length)
        else "file://" ++ renderAbs segs
    | none => "file://" ++ renderAbs segs

/-! ## `DefaultResourceExtractor` (extractors.py) -/

def FILE_ARGS : List String := ["path", "file_path", "filepath", "file", "filename"]
def URL_ARGS : List String := ["url", "uri", "endpoint"]

/-- One pass of the `for arg in KEYS` loop from `_extract_raw`: return the
value at the first key bound to a non-empty string.  (A key bound to an
empty string fails the truthiness test; a truthy non-string value fails the
`isinstance(path, str)` test; both cases fall through to the next key.) -/
def firstStrHit (args : Args) : List String → Option String
  | [] => none
  | k :: ks =>
      match Args.get args k with
      | some (.jstr s) => if s = "" then firstStrHit args ks else some s
      | _ => firstStrHit args ks

/-- Prefix a file path with `file://` unless it already carries it
(the `return f"file://{path}" ...` line). -/
def mkFileUri (s : String) : String :=
  if strStarts "file://" s then s else "file://" ++ s

/-- `DefaultResourceExtractor._extract_raw`: file-path argument keys first,
then URL keys. -/
def extractRaw (args : Args) : Option String :=
  match firstStrHit args FILE_ARGS with
  | some p => some (mkFileUri p)
  | none => firstStrHit args URL_ARGS

/-- `DefaultResourceExtractor.extract` — tool name is unused; `file://`
results are canonicalized with the extractor's root (from its mode). -/
def defaultExtract (cwd : List String) (root : Option String)
    (_toolName : String) (args : Args) : Option String :=
  match extractRaw args with
  | some raw => if strStarts "file://" raw then some (canonicalizeFileUri cwd raw root) else some raw
  | none => none

/-! ## Graph data model (models/nodes.py, models/edges.py, kuzu schema) -/

structure UserTextN where
  id : Nat
  text : String
  conversationId : String
  turnIndex : Int
  createdAt : Nat
  lastAccessedAt : Nat
deriving Repr, DecidableEq

/-- `ToolUseRecord` — embedded on `AgentText`, not a node. -/
structure ToolUseRecordM where
  id : String
  name : String
  args : Args
deriving Repr

structure AgentTextN where
  id : Nat
  text : String
  conversationId : String
  turnIndex : Int
  toolUses : List ToolUseRecordM
  createdAt : Nat
  lastAccessedAt : Nat
deriving Repr

structure ResourceVersionN where
  id : Nat
  contentHash : String
  uri : String
  conversationId : String
  createdAt : Nat
  lastAccessedAt : Nat
deriving Repr, DecidableEq

structure ResourceN where
  id : Nat
  uri : String
  currentContentHash : Option String
  conversationId : String
  createdAt : Nat
  lastAccessedAt : Nat
deriving Repr, DecidableEq

/-- A MESSAGE edge (the `Relationship` default, routed to the MESSAGE rel
table group by the kuzu store). -/
structure MessageEdgeM where
  id : Nat
  sourceId : Nat
  targetId : Nat
  conversationId : String
  createdAt : Nat
deriving Repr, DecidableEq

/-- A TOOL_USE edge (a `Relationship` whose type is the uppercased tool
name, routed to the TOOL_USE rel table). -/
structure ToolUseEdgeM where
  id : Nat
  sourceId : Nat
  targetId : Nat
  toolName : String
  conversationId : String
  properties : Args
  createdAt : Nat
deriving Repr

structure VersionOfEdgeM where
  id : Nat
  versionId : Nat
  resourceId : Nat
  createdAt : Nat
deriving Repr, DecidableEq

/-- The graph store's contents, each table in creation order. -/
structure GraphState where
  userTexts : List UserTextN
  agentTexts : List AgentTextN
  resources : List ResourceN
  versions : List ResourceVersionN
  messageEdges : List MessageEdgeM
  toolUseEdges : List ToolUseEdgeM
  versionOfEdges : List VersionOfEdgeM
deriving Repr

/-- One row of the LanceDB `user_texts` table. -/
structure VRow where
  nodeId : Nat
  text : String
  vector : List Int
  conversationId : String
  createdAt : Nat
  lastAccessed : Nat
deriving Repr, DecidableEq

/-- The whole TraceMem session state: both stores plus the scratch map of
tool results and the id/clock counter. -/
structure TMState where
  graph : GraphState
  vrows : List VRow
  toolResults : List (String × String)
  fresh : Nat
deriving Repr

def GraphState.empty : GraphState := ⟨[], [], [], [], [], [], []⟩

def TMState.init : TMState := ⟨GraphState.empty, [], [], 0⟩

/-- Allocate a fresh id/timestamp (uuid4 + `datetime.now(UTC)`). -/
def TMState.tick (s : TMState) : Nat × TMState :=
  (s.fresh, { s with fresh := s.fresh + 1 })

/-! ### Graph-store read operations (kuzu_store.py) -/

/-- A `UserText`-or-`AgentText` row, as returned by the UNION ALL queries. -/
inductive MsgNode where
  | user : UserTextN → MsgNode
  | agent : AgentTextN → MsgNode
deriving Repr

def MsgNode.nid : MsgNode → Nat
  | .user u => u.id
  | .agent a => a.id

def MsgNode.created : MsgNode → Nat
  | .user u => u.createdAt
  | .agent a => a.createdAt

def MsgNode.conv : MsgNode → String
  | .user u => u.conversationId
  | .agent a => a.conversationId

def MsgNode.turn : MsgNode → Int
  | .user u => u.turnIndex
  | .agent a => a.turnIndex

/-- All message nodes of the graph (UserText rows before AgentText rows,
matching the UNION ALL order of the source queries). -/
def msgNodes (g : GraphState) : List MsgNode :=
  g.userTexts.map MsgNode.user ++ g.agentTexts.map MsgNode.agent

/-- `rows.sort(key=created_at, reverse=True); rows[0]` — the first element
with maximal key, as a fold. -/
def latestBy (f : α → Nat) (l : List α) : Option α :=
  l.foldl
    (fun acc x =>
      match acc with
      | none => some x
      | some y => if f x > f y then some x else some y)
    none

/-- `get_max_turn_index`: max `turn_index` over both node tables, `-1` when
the conversation has no rows. -/
def getMaxTurnIndex (g : GraphState) (cid : String) : Int :=
  let ts := (g.userTexts.filter (fun u => u.conversationId = cid)).map (·.turnIndex)
      ++ (g.agentTexts.filter (fun a => a.conversationId = cid)).map (·.turnIndex)
  match ts with
  | [] => -1
  | t :: rest => rest.foldl max t

/-- `get_last_agent_text`: most recent AgentText in a conversation. -/
def getLastAgentText (g : GraphState) (cid : String) : Option AgentTextN :=
  latestBy (·.createdAt) (g.agentTexts.filter (fun a => a.conversationId = cid))

/-- `get_last_node_in_turn`: most recent node in `(conversation, turn)`. -/
def getLastNodeInTurn (g : GraphState) (cid : String) (turn : Int) : Option MsgNode :=
  latestBy MsgNode.created
    ((g.userTexts.filter (fun u => u.conversationId = cid ∧ u.turnIndex = turn)).map MsgNode.user
      ++ (g.agentTexts.filter (fun a => a.conversationId = cid ∧ a.turnIndex = turn)).map MsgNode.agent)

/-- `get_resource_by_uri`: first Resource row matching the URI. -/
def getResourceByUri (g : GraphState) (uri : String) : Option ResourceN :=
  g.resources.find? (fun r => r.uri = uri)

/-- `get_resource_version_by_hash` (`LIMIT 1`). -/
def getResourceVersionByHash (g : GraphState) (uri h : String) : Option ResourceVersionN :=
  g.versions.find? (fun v => v.uri = uri ∧ v.contentHash = h)

/-! ### Graph-store write operations -/

def GraphState.addUser (g : GraphState) (u : UserTextN) : GraphState :=
  { g with userTexts := g.userTexts ++ [u] }

def GraphState.addAgent (g : GraphState) (a : AgentTextN) : GraphState :=
  { g with agentTexts := g.agentTexts ++ [a] }

def GraphState.addResource (g : GraphState) (r : ResourceN) : GraphState :=
  { g with resources := g.resources ++ [r] }

def GraphState.addVersion (g : GraphState) (v : ResourceVersionN) : GraphState :=
  { g with versions := g.versions ++ [v] }

def GraphState.addMessageEdge (g : GraphState) (e : MessageEdgeM) : GraphState :=
  { g with messageEdges := g.messageEdges ++ [e] }

def GraphState.addToolUseEdge (g : GraphState) (e : ToolUseEdgeM) : GraphState :=
  { g with toolUseEdges := g.toolUseEdges ++ [e] }

def GraphState.addVersionOfEdge (g : GraphState) (e : VersionOfEdgeM) : GraphState :=
  { g with versionOfEdges := g.versionOfEdges ++ [e] }

/-- `update_resource_hash`: set `current_content_hash` (and bump
`last_accessed_at`) on every Resource row with the URI. -/
def GraphState.updateResourceHash (g : GraphState) (uri h : String) (now : Nat) : GraphState :=
  { g with
    resources := g.resources.map
      (fun r => if r.uri = uri then { r with currentContentHash := some h, lastAccessedAt := now } else r) }

/-- `create_node(Resource)` — MERGE-on-URI: return the existing row
unchanged when present, else insert. -/
def createResourceMerge (s : TMState) (node : ResourceN) : ResourceN × TMState :=
  match getResourceByUri s.graph node.uri with
  | some r => (r, s)
  | none => (node, { s with graph := s.graph.addResource node })

/-! ## Messages (messages.py) -/

inductive Role where
  | user
  | assistant
  | tool
  | system
deriving Repr, DecidableEq

structure ToolCallM where
  id : String
  name : String
  args : Args
deriving Repr

structure MessageM where
  role : Role
  content : String
  toolCalls : List ToolCallM := []
  toolCallId : Option String := none
deriving Repr

/-! ## Ingestion engine (tracemem.py) -/

/-- The engine's external collaborators: the content hash (`hashlib.sha256
… .hexdigest()`), the resource extractor, and the embedder.  The engine
treats each as an opaque pure function. -/
structure Ctx where
  hash : String → String
  extract : String → Args → Option String
  embed : String → List Int

/-- `tool_call.name.upper()` composed with the kuzu store's
`.upper().replace(" ", "_")`. -/
def upperUnder (n : String) : String :=
  ⟨n.data.map (fun c => if c = ' ' then '_' else c.toUpper)⟩

def lookupStr (l : List (String × String)) (k : String) : Option String :=
  (l.find? (fun p => p.1 = k)).map (·.2)

/-- Python dict assignment `d[k] = v`. -/
def scratchPut (l : List (String × String)) (k v : String) : List (String × String) :=
  if l.any (fun p => p.1 = k) then l.map (fun p => if p.1 = k then (k, v) else p)
  else l ++ [(k, v)]

/-- Python dict assignment for the `created` id maps. -/
def dictInsert (d : List (String × Nat)) (k : String) (v : Nat) : List (String × Nat) :=
  if d.any (fun p => p.1 = k) then d.map (fun p => if p.1 = k then (k, v) else p)
  else d ++ [(k, v)]

/-- Python `d.update(e)`. -/
def dictUpdate (d e : List (String × Nat)) : List (String × Nat) :=
  e.foldl (fun acc p => dictInsert acc p.1 p.2) d

def dictGet (d : List (String × Nat)) (k : String) : Option Nat :=
  (d.find? (fun p => p.1 = k)).map (·.2)

/-- `TraceMem._process_tool_call`: the resource-versioning procedure. -/
def processToolCall (c : Ctx) (agentId : Nat) (cid : String) (tc : ToolCallM)
    (s : TMState) : List (String × Nat) × TMState :=
  match c.extract tc.name tc.args with
  | none => ([], s)
  | some uri =>
      match lookupStr s.toolResults tc.id with
      | none => ([], s)
      | some content =>
          let h := c.hash content
          -- `if not content_hash: return created` (falsy empty digest)
          if h = "" then ([], s)
          else
            match getResourceByUri s.graph uri with
            | some r =>
                if r.currentContentHash = some h then
                  -- Same content: only a ToolUse edge to the existing version.
                  match getResourceVersionByHash s.graph uri h with
                  | some v =>
                      let (te, s) := s.tick
                      let e : ToolUseEdgeM := ⟨te, agentId, v.id, upperUnder tc.name, cid, tc.args, te⟩
                      ([], { s with graph := s.graph.addToolUseEdge e })
                  | none => ([], s)
                else
                  -- Content changed: new version, update hash, two edges.
                  let (tv, s) := s.tick
                  let v : ResourceVersionN := ⟨tv, h, uri, cid, tv, tv⟩
                  let s := { s with graph := s.graph.addVersion v }
                  let (tu, s) := s.tick
                  let s := { s with graph := s.graph.updateResourceHash uri h tu }
                  let (tvo, s) := s.tick
                  let s := { s with graph := s.graph.addVersionOfEdge ⟨tvo, v.id, r.id, tvo⟩ }
                  let (te, s) := s.tick
                  let e : ToolUseEdgeM := ⟨te, agentId, v.id, upperUnder tc.name, cid, tc.args, te⟩
                  let s := { s with graph := s.graph.addToolUseEdge e }
                  ([("resource_version_" ++ uri, v.id)], s)
            | none =>
                -- New resource and version, plus both edges.
                let (tr, s) := s.tick
                let rnode : ResourceN := ⟨tr, uri, some h, cid, tr, tr⟩
                let (rres, s) := createResourceMerge s rnode
                let (tv, s) := s.tick
                let v : ResourceVersionN := ⟨tv, h, uri, cid, tv, tv⟩
                let s := { s with graph := s.graph.addVersion v }
                let (tvo, s) := s.tick
                let s := { s with graph := s.graph.addVersionOfEdge ⟨tvo, v.id, rres.id, tvo⟩ }
                let (te, s) := s.tick
                let e : ToolUseEdgeM := ⟨te, agentId, v.id, upperUnder tc.name, cid, tc.args, te⟩
                let s := { s with graph := s.graph.addToolUseEdge e }
                ([("resource_" ++ uri, rres.id), ("resource_version_" ++ uri, v.id)], s)

/-- `TraceMem._add_user_message`. -/
def addUserMessage (c : Ctx) (cid : String) (content : String) (s : TMState) :
    UserTextN × TMState :=
  let maxTurn := getMaxTurnIndex s.graph cid
  let turnIndex := maxTurn + 1
  let lastAgent := getLastAgentText s.graph cid
  let (tu, s) := s.tick
  let u : UserTextN := ⟨tu, content, cid, turnIndex, tu, tu⟩
  let s := { s with graph := s.graph.addUser u }
  let s :=
    match lastAgent with
    | some a =>
        let (te, s') := s.tick
        { s' with graph := s'.graph.addMessageEdge ⟨te, a.id, u.id, cid, te⟩ }
    | none => s
  let vec := c.embed content
  let (tv, s) := s.tick
  let s := { s with vrows := s.vrows ++ [⟨u.id, content, vec, cid, tv, tv⟩] }
  (u, s)

/-- The node-and-edge part of `TraceMem._add_assistant_message` (steps 1-4:
turn computation, AgentText creation, in-turn MessageEdge). -/
def addAgentCore (cid : String) (m : MessageM) (s : TMState) : AgentTextN × TMState :=
  let maxTurn := getMaxTurnIndex s.graph cid
  let turn : Int := max 0 maxTurn
  let lastNode := getLastNodeInTurn s.graph cid turn
  let toolUses := m.toolCalls.map (fun tc => ToolUseRecordM.mk tc.id tc.name tc.args)
  let (ta, s) := s.tick
  let a : AgentTextN := ⟨ta, m.content, cid, turn, toolUses, ta, ta⟩
  let s := { s with graph := s.graph.addAgent a }
  let s :=
    match lastNode with
    | some n =>
        let (te, s') := s.tick
        { s' with graph := s'.graph.addMessageEdge ⟨te, n.nid, a.id, cid, te⟩ }
    | none => s
  (a, s)

/-- The per-tool-call fold of `_add_assistant_message` step 5
(`created.update(tool_ids)` for each call). -/
def foldToolCalls (c : Ctx) (agentId : Nat) (cid : String) (tcs : List ToolCallM)
    (st : List (String × Nat) × TMState) : List (String × Nat) × TMState :=
  tcs.foldl
    (fun (acc : List (String × Nat) × TMState) tc =>
      let r := processToolCall c agentId cid tc acc.2
      (dictUpdate acc.1 r.1, r.2))
    st

/-- `TraceMem._add_assistant_message`. -/
def addAssistantMessage (c : Ctx) (cid : String) (m : MessageM) (s : TMState) :
    AgentTextN × List (String × Nat) × TMState :=
  let r := addAgentCore cid m s
  let folded := foldToolCalls c r.1.id cid m.toolCalls ([], r.2)
  (r.1, folded.1, folded.2)

/-- `TraceMem.add_message`. -/
def addMessage (c : Ctx) (cid : String) (m : MessageM) (s : TMState) :
    List (String × Nat) × TMState :=
  match m.role with
  | .user =>
      let r := addUserMessage c cid m.content s
      ([("user_text", r.1.id)], r.2)
  | .assistant =>
      let r := addAssistantMessage c cid m s
      (dictUpdate [("agent_text", r.1.id)] r.2.1, r.2.2)
  | .tool =>
      match m.toolCallId with
      | some tcid => ([], { s with toolResults := scratchPut s.toolResults tcid m.content })
      | none => ([], s)
  | .system => ([], s)

/-- `TraceMem.import_trace`: clear the scratch map, collect tool results in
a first pass, then `add_message` each message in order. -/
def importTrace (c : Ctx) (cid : String) (msgs : List MessageM) (s : TMState) :
    List (String × Nat) × TMState :=
  let s := { s with toolResults := [] }
  let s := msgs.foldl
    (fun s m =>
      match m.role, m.toolCallId with
      | .tool, some tcid => { s with toolResults := scratchPut s.toolResults tcid m.content }
      | _, _ => s)
    s
  msgs.foldl
    (fun (acc : List (String × Nat) × TMState) m =>
      let r := addMessage c cid m acc.2
      (dictUpdate acc.1 r.1, r.2))
    ([], s)

/-- States reachable from the empty store by `add_message` calls (with a
fixed set of collaborators). -/
inductive Reachable (c : Ctx) : TMState → Prop where
  | init : Reachable c TMState.init
  | step (cid : String) (m : MessageM) {s : TMState} :
      Reachable c s → Reachable c (addMessage c cid m s).2

/-- The most recently created `ResourceVersion` for a URI (versions are
appended in creation order, so it is the last matching row). -/
def lastVersionFor (g : GraphState) (uri : String) : Option ResourceVersionN :=
  (g.versions.filter (fun v => v.uri = uri)).getLast?

/-- Resource-versioning invariants: every Resource's current hash is the
hash of the most recently created version for its URI, and every version
belongs to some Resource. -/
def ResInv (s : TMState) : Prop :=
  (∀ r ∈ s.graph.resources, ∃ v, lastVersionFor s.graph r.uri = some v
    ∧ r.currentContentHash = some v.contentHash)
  ∧ (∀ v ∈ s.graph.versions, ∃ r ∈ s.graph.resources, r.uri = v.uri)

/-- Message-graph invariants: node ids and timestamps are below the
allocation counter, node ids are injective, and every MessageEdge joins
two existing nodes with increasing `created_at`. -/
def MsgInv (s : TMState) : Prop :=
  (∀ n ∈ msgNodes s.graph, MsgNode.nid n < s.fresh ∧ MsgNode.created n < s.fresh)
  ∧ (∀ m ∈ msgNodes s.graph, ∀ n ∈ msgNodes s.graph, MsgNode.nid m = MsgNode.nid n → m = n)
  ∧ (∀ e ∈ s.graph.messageEdges, ∃ ns ∈ msgNodes s.graph, ∃ nt ∈ msgNodes s.graph,
      MsgNode.nid ns = e.sourceId ∧ MsgNode.nid nt = e.targetId
      ∧ MsgNode.created ns < MsgNode.created nt)

def Inv (s : TMState) : Prop := ResInv s ∧ MsgInv s

/-! ## Generic list helpers used by the retrieval embedding -/

/-- Insertion step of a Boolean-ordered insertion sort. -/
def insertB (le : α → α → Bool) (x : α) : List α → List α
  | [] => [x]
  | y :: ys => if le x y then x :: y :: ys else y :: insertB le x ys

/-- Boolean-ordered insertion sort (models the backend's `ORDER BY`). -/
def sortB (le : α → α → Bool) : List α → List α
  | [] => []
  | x :: xs => insertB le x (sortB le xs)

/-- Deduplicate, keeping the first element for each key. -/
def dedupByKeyAux [DecidableEq β] (key : α → β) (seen : List β) : List α → List α
  | [] => []
  | x :: xs =>
      if key x ∈ seen then dedupByKeyAux key seen xs
      else x :: dedupByKeyAux key (key x :: seen) xs

def dedupByKey [DecidableEq β] (key : α → β) (l : List α) : List α :=
  dedupByKeyAux key [] l

/-! ## Bounded MESSAGE-edge reachability (the `[:MESSAGE*lo..hi]` primitive) -/

/-- One expansion step: add the targets of all edges whose source is
already in the set. -/
def stepIds (edges : List MessageEdgeM) (ids : List Nat) : List Nat :=
  (ids ++ edges.filterMap (fun e => if e.sourceId ∈ ids then some e.targetId else none)).dedup

/-- Node ids reachable from `init` by at most `d` MESSAGE hops. -/
def reachSet (edges : List MessageEdgeM) (init : List Nat) : Nat → List Nat
  | 0 => init.dedup
  | d + 1 => stepIds edges (reachSet edges init d)

/-- `[:MESSAGE*0..d]` from a single start node. -/
def reachIds (edges : List MessageEdgeM) (start : Nat) (d : Nat) : List Nat :=
  reachSet edges [start] d

/-- `[:MESSAGE*1..d]` from a single start node: one mandatory hop, then up
to `d - 1` more. -/
def reachIdsOneMore (edges : List MessageEdgeM) (start : Nat) (d : Nat) : List Nat :=
  reachSet edges (edges.filterMap (fun e => if e.sourceId = start then some e.targetId else none)) (d - 1)

/-! ## Retrieval result shapes (retrieval/results.py) -/

structure UserTextInfoM where
  id : Nat
  text : String
  conversationId : String
deriving Repr, DecidableEq

structure AgentTextInfoM where
  id : Nat
  text : String
deriving Repr, DecidableEq

structure ResourceVersionInfoM where
  id : Nat
  uri : String
  contentHash : String
deriving Repr, DecidableEq

structure ResourceInfoM where
  id : Nat
  uri : String
deriving Repr, DecidableEq

structure ToolUseM where
  toolName : String
  properties : Args
  resourceVersion : Option ResourceVersionInfoM := none
  resource : Option ResourceInfoM := none
deriving Repr

structure ContextResultM where
  userText : Option UserTextInfoM := none
  agentText : Option AgentTextInfoM := none
  toolUses : List ToolUseM := []
deriving Repr

structure ConversationRefM where
  conversationId : String
  userTextId : Nat
  userText : String
  agentText : String
  createdAt : Nat
deriving Repr, DecidableEq

structure TrajStepM where
  nodeId : Nat
  nodeType : String
  text : String
  conversationId : String
  createdAt : Nat
  toolUses : List ToolUseM
deriving Repr

structure TrajectoryResultM where
  steps : List TrajStepM
deriving Repr

/-- `RetrievalConfig` (only the fields the modelled paths read). -/
structure RetrievalCfg where
  limit : Nat := 10
  includeContext : Bool := true
  vectorWeight : ℚ := 1 / 2
  sortBy : String := "created_at"
  sortOrder : String := "desc"
  excludeConversationId : Option String := none
  uniqueConversations : Bool := false
  trajectoryMaxDepth : Nat := 100

/-! ## `get_node_context` (kuzu_store.py) -/

/-- `get_node_context`: the UserText by id, its one-hop AgentText (first
row, as `_single` takes), and all tool uses of the one-hop agents joined
with their versions and resources.  A missing node yields the empty
context (the queries return no rows; no error is raised). -/
def getNodeContext (g : GraphState) (nid : Nat) : ContextResultM :=
  match g.userTexts.find? (fun u => u.id = nid) with
  | none => {}
  | some u =>
      let agent := g.messageEdges.findSome? (fun e =>
        if e.sourceId = u.id then g.agentTexts.find? (fun a => a.id = e.targetId) else none)
      let tus := (g.messageEdges.filter (fun e => e.sourceId = u.id)).flatMap (fun e =>
        (g.agentTexts.filter (fun a => a.id = e.targetId)).flatMap (fun a =>
          (g.toolUseEdges.filter (fun te => te.sourceId = a.id)).flatMap (fun te =>
            (g.versions.filter (fun v => v.id = te.targetId)).flatMap (fun v =>
              let resMatches := (g.versionOfEdges.filter (fun vo => vo.versionId = v.id)).flatMap
                (fun vo => g.resources.filter (fun r => r.id = vo.resourceId))
              match resMatches with
              | [] => [{ toolName := te.toolName, properties := te.properties,
                         resourceVersion := some ⟨v.id, v.uri, v.contentHash⟩ }]
              | rs => rs.map (fun r =>
                  { toolName := te.toolName, properties := te.properties,
                    resourceVersion := some ⟨v.id, v.uri, v.contentHash⟩,
                    resource := some ⟨r.id, r.uri⟩ })))))
      { userText := some ⟨u.id, u.text, u.conversationId⟩
        agentText := agent.map (fun a => AgentTextInfoM.mk a.id a.text)
        toolUses := tus }

/-! ## `get_resource_conversations` (kuzu_store.py) -/

/-- The raw match rows of the
`(u)-[:MESSAGE*1..30]->(a)-[:TOOL_USE]->(v)-[:VERSION_OF]->(res)` pattern
with `res.uri = uri`. -/
def resourceConvRows (g : GraphState) (uri : String) : List ConversationRefM :=
  (g.resources.filter (fun r => r.uri = uri)).flatMap (fun res =>
    (g.versionOfEdges.filter (fun vo => vo.resourceId = res.id)).flatMap (fun vo =>
      (g.versions.filter (fun v => v.id = vo.versionId)).flatMap (fun v =>
        (g.toolUseEdges.filter (fun te => te.targetId = v.id)).flatMap (fun te =>
          (g.agentTexts.filter (fun a => a.id = te.sourceId)).flatMap (fun a =>
            (g.userTexts.filter
                (fun u => a.id ∈ reachIdsOneMore g.messageEdges u.id 30)).map
              (fun u => ConversationRefM.mk u.conversationId u.id u.text a.text u.createdAt))))))

/-- `get_resource_conversations`: filter, DISTINCT, ORDER BY, LIMIT.
(The model keys DISTINCT and the sort on `created_at`; the
`last_accessed_at` sort branch differs only in the projected key.) -/
def getResourceConversations (g : GraphState) (uri : String) (limit : Nat)
    (sortOrder : String) (excludeConversationId : Option String) : List ConversationRefM :=
  let rows := resourceConvRows g uri
  let rows :=
    match excludeConversationId with
    | some c => rows.filter (fun r => !(r.conversationId = c))
    | none => rows
  let rows := dedupByKey (fun r => (r.conversationId, r.userTextId, r.userText, r.agentText, r.createdAt)) rows
  let rows :=
    if sortOrder = "desc" then sortB (fun a b => Nat.ble b.createdAt a.createdAt) rows
    else sortB (fun a b => Nat.ble a.createdAt b.createdAt) rows
  rows.take limit

/-! ## `get_trajectory_nodes` (kuzu_store.py) + `_parse_trajectory` (hybrid.py) -/

/-- A raw trajectory row: node properties plus its label. -/
structure TrajRecord where
  id : Nat
  text : String
  conversationId : String
  turnIndex : Int
  createdAt : Nat
  lastAccessedAt : Nat
  toolUses : List ToolUseRecordM
  label : String
deriving Repr

def recordOfNode : MsgNode → TrajRecord
  | .user u => ⟨u.id, u.text, u.conversationId, u.turnIndex, u.createdAt, u.lastAccessedAt, [], "UserText"⟩
  | .agent a => ⟨a.id, a.text, a.conversationId, a.turnIndex, a.createdAt, a.lastAccessedAt, a.toolUses, "AgentText"⟩

/-- `get_trajectory_nodes`: all nodes reachable from the start UserText via
`[:MESSAGE*0..min(max_depth,30)]` in the same conversation, ordered by
`created_at` ascending, deduplicated by id keeping the first row. -/
def getTrajectoryNodes (g : GraphState) (startId : Nat) (maxDepth : Nat) : List TrajRecord :=
  match g.userTexts.find? (fun u => u.id = startId) with
  | none => []
  | some start =>
      let depth := min maxDepth 30
      let ids := reachIds g.messageEdges startId depth
      let nodes := (msgNodes g).filter
        (fun n => MsgNode.nid n ∈ ids ∧ MsgNode.conv n = start.conversationId)
      dedupByKey (fun r => r.id)
        (sortB (fun a b => Nat.ble a.createdAt b.createdAt) (nodes.map recordOfNode))

def isStartRec (startId : Nat) (r : TrajRecord) : Bool :=
  r.label = "UserText" && r.id = startId

def isFollowRec (startId : Nat) (r : TrajRecord) : Bool :=
  r.label = "UserText" && !(r.id = startId)

def isMsgLabel (r : TrajRecord) : Bool :=
  r.label = "UserText" || r.label = "AgentText"

/-- Build a `TrajectoryStep` from a row (`tool_uses` deserialized only for
AgentText rows; the follow-up UserText step carries no tool uses, which
coincides with this for a UserText label). -/
def stepOf (r : TrajRecord) : TrajStepM :=
  { nodeId := r.id, nodeType := r.label, text := r.text,
    conversationId := r.conversationId, createdAt := r.createdAt,
    toolUses :=
      if r.label = "AgentText" then
        r.toolUses.map (fun tu => { toolName := tu.name, properties := tu.args })
      else [] }

/-- The `for rec in records` loop of `_parse_trajectory`: skip until the
start UserText, then emit every UserText/AgentText step, stopping after
emitting the first UserText other than the start. -/
def parseLoop (startId : Nat) : Bool → List TrajRecord → List TrajStepM
  | _, [] => []
  | found, r :: rest =>
      if r.label = "UserText" then
        if r.id = startId then stepOf r :: parseLoop startId true rest
        else if found then [stepOf r]
        else parseLoop startId found rest
      else if r.label = "AgentText" then
        if found then stepOf r :: parseLoop startId found rest
        else parseLoop startId found rest
      else parseLoop startId found rest

def parseTrajectory (startId : Nat) (records : List TrajRecord) : TrajectoryResultM :=
  ⟨parseLoop startId false records⟩

/-- Modelled from the spec: `get_trajectory` "starts at the given UserText
and ends at and including the next UserText in the conversation" — drop
rows before the start row, emit the contiguous run of non-follow-up
message rows, then the first follow-up UserText if any. -/
def specWalk (startId : Nat) (records : List TrajRecord) : List TrajStepM :=
  let ms := records.filter isMsgLabel
  match ms.dropWhile (fun r => !isStartRec startId r) with
  | [] => []
  | st :: rest =>
      stepOf st ::
        ((rest.takeWhile (fun r => !isFollowRec startId r)).map stepOf
          ++ ((rest.dropWhile (fun r => !isFollowRec startId r)).head?.toList.map stepOf))

/-! ## LanceDB vector store (storage/vector/lance.py) -/

structure VectorSearchResultM where
  nodeId : Nat
  text : String
  conversationId : String
  createdAt : Nat
  lastAccessed : Nat
  score : ℚ
deriving Repr, DecidableEq

/-- 1-based rank of a row (by node id) in a ranked list; rows absent from
the list rank one past the end. -/
def rankOf (ranked : List VRow) (n : Nat) : Nat :=
  match ranked.findIdx? (fun x => x.nodeId = n) with
  | some i => i + 1
  | none => ranked.length + 1

/-- Reciprocal-rank-fusion score with constant `k` (LanceDB's
`RRFReranker`, default K = 60): the sum of `1/(k + rank)` over both
result sets. -/
def rrfScore (k : Nat) (denseRanked lexRanked : List VRow) (x : VRow) : ℚ :=
  1 / ((k : ℚ) + rankOf denseRanked x.nodeId) + 1 / ((k : ℚ) + rankOf lexRanked x.nodeId)

def toVSR (score : ℚ) (x : VRow) : VectorSearchResultM :=
  ⟨x.nodeId, x.text, x.conversationId, x.createdAt, x.lastAccessed, score⟩

/-- `LanceDBVectorStore.search`.  The backend runs the hybrid query —
dense ranking and lexical (FTS) ranking merged by the configured reranker
— with `limit * 2`, then filters the excluded conversation and takes
`limit` rows.  `dense` and `lex` are the backend's scorers (external to
the store).  Faithful to the source: the `vectorWeight` argument is
accepted but never used in building the query. -/
def lanceSearch (dense : List Int → VRow → ℚ) (lex : String → VRow → ℚ)
    (rows : List VRow) (queryVector : List Int) (queryText : String) (limit : Nat)
    (excludeConversationId : Option String) (_vectorWeight : ℚ) : List VectorSearchResultM :=
  let denseRanked := sortB (fun a b => decide (dense queryVector b ≤ dense queryVector a)) rows
  let lexRanked := sortB (fun a b => decide (lex queryText b ≤ lex queryText a)) rows
  let score := rrfScore 60 denseRanked lexRanked
  let merged := sortB (fun a b => decide (score b ≤ score a)) rows
  let merged := merged.take (limit * 2)
  let merged :=
    match excludeConversationId with
    | some cid => merged.filter (fun (x : VRow) => !(x.conversationId = cid))
    | none => merged
  (merged.take limit).map (fun x => toVSR (score x) x)

/-- Modelled from the spec: the "pure lexical (BM25-style) ranking" a
`vector_weight` of `0.0` is specified to produce. -/
def pureLexicalRanking (lex : String → VRow → ℚ) (rows : List VRow) (queryText : String)
    (limit : Nat) : List VectorSearchResultM :=
  ((sortB (fun a b => decide (lex queryText b ≤ lex queryText a)) rows).take limit).map
    (fun x => toVSR (lex queryText x) x)

/-- Modelled from the spec: the "pure dense cosine ranking" a
`vector_weight` of `1.0` is specified to produce. -/
def pureDenseRanking (dense : List Int → VRow → ℚ) (rows : List VRow) (queryVector : List Int)
    (limit : Nat) : List VectorSearchResultM :=
  ((sortB (fun a b => decide (dense queryVector b ≤ dense queryVector a)) rows).take limit).map
    (fun x => toVSR (dense queryVector x) x)

/-! ## Hybrid retrieval strategy (retrieval/hybrid.py) -/

structure RetrievalResultM where
  nodeId : Nat
  text : String
  conversationId : String
  score : ℚ
  createdAt : Nat
  context : Option ContextResultM := none
deriving Repr

/-- Graph-store `update_last_accessed(ids)`: one timestamp for all ids,
applied on every node table. -/
def graphTouch (g : GraphState) (ids : List Nat) (now : Nat) : GraphState :=
  { userTexts := g.userTexts.map (fun n => if n.id ∈ ids then { n with lastAccessedAt := now } else n)
    agentTexts := g.agentTexts.map (fun n => if n.id ∈ ids then { n with lastAccessedAt := now } else n)
    resources := g.resources.map (fun n => if n.id ∈ ids then { n with lastAccessedAt := now } else n)
    versions := g.versions.map (fun n => if n.id ∈ ids then { n with lastAccessedAt := now } else n)
    messageEdges := g.messageEdges
    toolUseEdges := g.toolUseEdges
    versionOfEdges := g.versionOfEdges }

/-- Vector-store `update_last_accessed(node_id)` (one id at a time). -/
def vectorTouch (rows : List VRow) (nid : Nat) (now : Nat) : List VRow :=
  rows.map (fun r => if r.nodeId = nid then { r with lastAccessed := now } else r)

/-- The `seen`/`deduped` fold of `HybridRetrievalStrategy.search` for
`unique_conversations`: keep one row per conversation (the best score),
preserving order of first appearance. -/
def dedupBestByConv (l : List VectorSearchResultM) : List VectorSearchResultM :=
  (l.foldl
    (fun (acc : List (String × Nat) × List VectorSearchResultM) vr =>
      match acc.1.find? (fun p => p.1 = vr.conversationId) with
      | none => ((acc.1 ++ [(vr.conversationId, acc.2.length)]), acc.2 ++ [vr])
      | some p =>
          if decide ((acc.2.getD p.2 vr).score < vr.score)
          then (acc.1, acc.2.set p.2 vr)
          else acc)
    ([], [])).2

/-- `HybridRetrievalStrategy.search`: embed, hybrid vector-store query,
optional per-conversation dedup, context expansion, and the
`last_accessed` touches on both stores (the only retrieval path that
performs them). -/
def searchH (c : Ctx) (dense : List Int → VRow → ℚ) (lex : String → VRow → ℚ)
    (query : String) (cfg : RetrievalCfg) (s : TMState) :
    List RetrievalResultM × TMState :=
  let queryVector := c.embed query
  let fetchLimit := if cfg.uniqueConversations then cfg.limit * 3 else cfg.limit
  let vrs := lanceSearch dense lex s.vrows queryVector query fetchLimit
    cfg.excludeConversationId cfg.vectorWeight
  let vrs := if cfg.uniqueConversations then (dedupBestByConv vrs).take cfg.limit else vrs
  let results := vrs.map (fun vr =>
    { nodeId := vr.nodeId, text := vr.text, conversationId := vr.conversationId,
      score := vr.score, createdAt := vr.createdAt,
      context := if cfg.includeContext then some (getNodeContext s.graph vr.nodeId) else none })
  if results.isEmpty then (results, s)
  else
    let ids := results.map (·.nodeId)
    let (tg, s) := s.tick
    let s := { s with graph := graphTouch s.graph ids tg }
    let s := ids.foldl
      (fun s i =>
        let (tv, s') := s.tick
        { s' with vrows := vectorTouch s'.vrows i tv })
      s
    (results, s)

/-- `HybridRetrievalStrategy.get_context`: a pure graph read; the state is
returned unchanged (the source performs no mutating store call here). -/
def getContextH (nid : Nat) (s : TMState) : ContextResultM × TMState :=
  (getNodeContext s.graph nid, s)

/-- `HybridRetrievalStrategy.get_conversations_for_resource`: delegates to
the graph store; no mutating store call. -/
def getConversationsH (uri : String) (cfg : RetrievalCfg) (s : TMState) :
    List ConversationRefM × TMState :=
  (getResourceConversations s.graph uri cfg.limit cfg.sortOrder cfg.excludeConversationId, s)

/-- `HybridRetrievalStrategy.get_trajectory`: fetch raw rows, parse; no
mutating store call. -/
def getTrajectoryH (nid : Nat) (cfg : RetrievalCfg) (s : TMState) :
    TrajectoryResultM × TMState :=
  (parseTrajectory nid (getTrajectoryNodes s.graph nid cfg.trajectoryMaxDepth), s)

/-- A well-formed path segment, as produced by resolution: nonempty, not a
dot component, and free of separators. -/
def WFSeg (s : String) : Prop :=
  s ≠ "" ∧ s ≠ "." ∧ s ≠ ".." ∧ '/' ∉ s.data

/-! ## Concrete instantiation used by scenario conjuncts and witnesses -/

/-- A concrete collaborator set: an injective stand-in for SHA-256, the
default extractor in global mode, and a trivial embedder. -/
def exampleCtx : Ctx :=
  { hash := fun s => "sha-" ++ s
    extract := defaultExtract [] none
    embed := fun _ => [1, 2] }

/-- Spec scenario C: read `/tmp/a` observing content `content`. -/
def readTrace (tcid content : String) : List MessageM :=
  [ { role := .user, content := "Read f" }
  , { role := .assistant, content := "reading",
      toolCalls := [⟨tcid, "read_file", [("path", .jstr "/tmp/a")]⟩] }
  , { role := .tool, content := content, toolCallId := some tcid } ]

/-- Spec scenario D: scenario C twice with identical content, in two
conversations. -/
def twoReadsState : TMState :=
  (importTrace exampleCtx "cB" (readTrace "c2" "AAA")
    (importTrace exampleCtx "cA" (readTrace "c1" "AAA") TMState.init).2).2

/-- Tool result for call `c1`. -/
def wMsgTool1 : MessageM := ⟨.tool, "AAA", [], some "c1"⟩

/-- Assistant message reading `/tmp/a` via call `c1`. -/
def wMsgAsst1 : MessageM :=
  ⟨.assistant, "reading", [⟨"c1", "read_file", [("path", .jstr "/tmp/a")]⟩], none⟩

/-- Tool result for call `c2` (same content as `c1`). -/
def wMsgTool2 : MessageM := ⟨.tool, "AAA", [], some "c2"⟩

/-- A reachable state holding a Resource for `/tmp/a` (hash `sha-AAA`) and
the pending tool result for call `c2`. -/
def wS3 : TMState :=
  (addMessage exampleCtx "cA" wMsgTool2
    (addMessage exampleCtx "cA" wMsgAsst1
      (addMessage exampleCtx "cA" wMsgTool1 TMState.init).2).2).2

/-- A state holding a single user message (conversation `cB`). -/
def wSUser : TMState :=
  (addMessage exampleCtx "cB" ⟨.user, "hi", [], none⟩ TMState.init).2

/-- Three stored vector rows used to separate the rankings. -/
def rowsT : List VRow := [⟨1, "A", [], "c1", 0, 0⟩, ⟨2, "B", [], "c2", 0, 0⟩, ⟨3, "C", [], "c3", 0, 0⟩]

/-- A dense scorer preferring rows 2, 3, 1 (in that order). -/
def denseT : List Int → VRow → ℚ :=
  fun _ r => if r.nodeId = 2 then 3 else if r.nodeId = 3 then 2 else 1

/-- A lexical scorer preferring rows 1, 2, 3 (in that order). -/
def lexT : String → VRow → ℚ :=
  fun _ r => if r.nodeId = 1 then 3 else if r.nodeId = 2 then 2 else 1

/-- A conversation with 31 assistant turns between the opening user
message and the follow-up user message. -/
def longTrace : List MessageM :=
  ⟨.user, "start", [], none⟩ ::
    (List.replicate 31 ⟨.assistant, "step", [], none⟩ ++ [⟨.user, "follow", [], none⟩])

/-- The state after ingesting `longTrace`. -/
def longState : TMState := (importTrace exampleCtx "cl" longTrace TMState.init).2

/-- Tool result for call `c2` with changed content. -/
def wMsgTool2b : MessageM := ⟨.tool, "BBB", [], some "c2"⟩

/-- Like `wS3` but the pending `c2` result carries different content. -/
def wS3b : TMState :=
  (addMessage exampleCtx "cA" wMsgTool2b
    (addMessage exampleCtx "cA" wMsgAsst1
      (addMessage exampleCtx "cA" wMsgTool1 TMState.init).2).2).2

/-! # Lemmas and claim theorems -/

/-! ## String / path groundwork -/

theorem resInv_of_eq {s s' : TMState} (h : ResInv s)
    (hres : s'.graph.resources = s.graph.resources)
    (hver : s'.graph.versions = s.graph.versions) : ResInv s' := by
  constructor
  · intro r hr
    rw [hres] at hr
    obtain ⟨v, hv1, hv2⟩ := h.1 r hr
    refine ⟨v, ?_, hv2⟩
    unfold lastVersionFor at hv1 ⊢
    rw [hver]
    exact hv1
  · intro v hv
    rw [hver] at hv
    obtain ⟨r, hr1, hr2⟩ := h.2 v hv
    exact ⟨r, by rw [hres]; exact hr1, hr2⟩

theorem msgInv_frame {s s' : TMState} (h : MsgInv s)
    (hu : s'.graph.userTexts = s.graph.userTexts)
    (ha : s'.graph.agentTexts = s.graph.agentTexts)
    (he : s'.graph.messageEdges = s.graph.messageEdges)
    (hf : s.fresh ≤ s'.fresh) : MsgInv s' := by
  have hm : msgNodes s'.graph = msgNodes s.graph := by
    unfold msgNodes
    rw [hu, ha]
  obtain ⟨h1, h2, h3⟩ := h
  refine ⟨?_, ?_, ?_⟩
  · intro n hn
    rw [hm] at hn
    have := h1 n hn
    omega
  · intro m hm' n hn
    rw [hm] at hm' hn
    exact h2 m hm' n hn
  · intro e he'
    rw [he] at he'
    obtain ⟨ns, hns, nt, hnt, hprops⟩ := h3 e he'
    exact ⟨ns, by rw [hm]; exact hns, nt, by rw [hm]; exact hnt, hprops⟩

theorem strData_append (a b : String) : (a ++ b).data = a.data ++ b.data := by
  cases a; cases b; rfl

theorem strmk_eta (s : String) : (⟨s.data⟩ : String) = s := by
  cases s; rfl

theorem strdata_nil {s : String} (h : s.data = []) : s = "" := by
  cases s with
  | mk l => cases h; rfl

theorem isPre_self_append (a b : List Char) : a.isPrefixOf (a ++ b) = true := by
  induction a with
  | nil => simp [List.isPrefixOf]
  | cons c cs ih => simp [List.isPrefixOf, ih]

theorem isPre_append_cancel (a b c : List Char) :
    (a ++ b).isPrefixOf (a ++ c) = b.isPrefixOf c := by
  induction a with
  | nil => rfl
  | cons x xs ih => simpa [List.isPrefixOf] using ih

theorem isPre_ex {p l : List Char} (h : p.isPrefixOf l = true) : ∃ t, l = p ++ t := by
  induction p generalizing l with
  | nil => exact ⟨l, rfl⟩
  | cons c cs ih =>
      cases l with
      | nil => simp [List.isPrefixOf] at h
      | cons d ds =>
          simp only [List.isPrefixOf, Bool.and_eq_true, beq_iff_eq] at h
          obtain ⟨rfl, h2⟩ := h
          obtain ⟨t, rfl⟩ := ih h2
          exact ⟨t, rfl⟩

theorem chSplit_ne_nil (sep : Char) (l : List Char) : chSplit sep l ≠ [] := by
  induction l with
  | nil => simp [chSplit]
  | cons c cs ih =>
      simp only [chSplit]
      by_cases hc : c = sep
      · simp [hc]
      · simp only [if_neg hc]
        cases hr : chSplit sep cs with
        | nil => exact absurd hr ih
        | cons g gs => simp

theorem chSplit_no_sep {sep : Char} : ∀ {a : List Char}, sep ∉ a → chSplit sep a = [a]
  | [], _ => rfl
  | c :: cs, h => by
      have hc : ¬ c = sep := fun he => h (he ▸ List.mem_cons_self c cs)
      have hcs : sep ∉ cs := fun hm => h (List.mem_cons_of_mem c hm)
      simp only [chSplit, if_neg hc, chSplit_no_sep hcs]

theorem chSplit_append_sep {sep : Char} :
    ∀ {a : List Char}, sep ∉ a → ∀ b, chSplit sep (a ++ sep :: b) = a :: chSplit sep b
  | [], _, b => by simp [chSplit]
  | c :: cs, h, b => by
      have hc : ¬ c = sep := fun he => h (he ▸ List.mem_cons_self c cs)
      have hcs : sep ∉ cs := fun hm => h (List.mem_cons_of_mem c hm)
      have ih := chSplit_append_sep hcs b
      rw [List.cons_append]
      simp only [chSplit, List.append_eq] at ih ⊢
      rw [ih, if_neg hc]

theorem chSplit_mem_no_sep (sep : Char) : ∀ (l : List Char), ∀ g ∈ chSplit sep l, sep ∉ g
  | [], g, hg => by
      simp only [chSplit, List.mem_singleton] at hg
      simp [hg]
  | c :: cs, g, hg => by
      simp only [chSplit] at hg
      by_cases hc : c = sep
      · rw [if_pos hc] at hg
        rcases List.mem_cons.mp hg with h | h
        · simp [h]
        · exact chSplit_mem_no_sep sep cs g h
      · rw [if_neg hc] at hg
        cases hr : chSplit sep cs with
        | nil => exact absurd hr (chSplit_ne_nil sep cs)
        | cons g0 gs =>
            rw [hr] at hg
            rcases List.mem_cons.mp hg with h | h
            · subst h
              intro hm
              rcases List.mem_cons.mp hm with h' | h'
              · exact hc h'.symm
              · exact chSplit_mem_no_sep sep cs g0 (hr ▸ List.mem_cons_self g0 gs) h'
            · exact chSplit_mem_no_sep sep cs g (hr ▸ List.mem_cons_of_mem g0 h)

theorem chSplit_strJoin : ∀ (segs : List String), (∀ s ∈ segs, '/' ∉ s.data) → segs ≠ [] →
    chSplit '/' (strJoin "/" segs).data = segs.map (·.data)
  | [], _, hne => absurd rfl hne
  | [x], h, _ => by
      simpa [strJoin] using chSplit_no_sep (h x (by simp))
  | x :: y :: xs, h, _ => by
      have hx : '/' ∉ x.data := h x (by simp)
      have hrest : ∀ s ∈ y :: xs, '/' ∉ s.data := fun s hs => h s (List.mem_cons_of_mem x hs)
      have ih := chSplit_strJoin (y :: xs) hrest (by simp)
      show chSplit '/' (x ++ "/" ++ strJoin "/" (y :: xs)).data = _
      rw [strData_append, strData_append]
      have : ("/" : String).data = ['/'] := rfl
      rw [this, List.append_assoc]
      show chSplit '/' (x.data ++ '/' :: (strJoin "/" (y :: xs)).data) = _
      rw [chSplit_append_sep hx, ih]
      rfl

theorem normAcc_wf_id : ∀ (segs : List String) (acc : List String),
    (∀ s ∈ segs, s ≠ "" ∧ s ≠ "." ∧ s ≠ "..") → normAcc acc segs = acc ++ segs
  | [], acc, _ => by simp [normAcc]
  | seg :: rest, acc, h => by
      obtain ⟨h1, h2, h3⟩ := h seg (by simp)
      have hrest : ∀ s ∈ rest, s ≠ "" ∧ s ≠ "." ∧ s ≠ ".." := fun s hs => h s (List.mem_cons_of_mem seg hs)
      have hc : ¬ ((decide (seg = "") || decide (seg = ".")) = true) := by simp [h1, h2]
      simp only [normAcc, if_neg hc, if_neg h3,
        normAcc_wf_id rest (acc ++ [seg]) hrest, List.append_assoc, List.singleton_append]

theorem normAcc_out {P : String → Prop} :
    ∀ (segs acc : List String), (∀ x ∈ acc, P x) →
      (∀ s ∈ segs, s ≠ "" → s ≠ "." → s ≠ ".." → P s) →
      ∀ x ∈ normAcc acc segs, P x
  | [], acc, hacc, _, x, hx => hacc x (by simpa [normAcc] using hx)
  | seg :: rest, acc, hacc, hseg, x, hx => by
      have hrest : ∀ s ∈ rest, s ≠ "" → s ≠ "." → s ≠ ".." → P s :=
        fun s hs => hseg s (List.mem_cons_of_mem seg hs)
      simp only [normAcc] at hx
      by_cases h1 : seg = "" ∨ seg = "."
      · rw [if_pos (by rcases h1 with h | h <;> simp [h])] at hx
        exact normAcc_out rest acc hacc hrest x hx
      · push_neg at h1
        rw [if_neg (by simp [h1.1, h1.2])] at hx
        by_cases h2 : seg = ".."
        · rw [if_pos h2] at hx
          exact normAcc_out (P := P) rest acc.dropLast
            (fun y hy => hacc y ((List.dropLast_sublist acc).subset hy)) hrest x hx
        · rw [if_neg h2] at hx
          refine normAcc_out rest (acc ++ [seg]) (fun y hy => ?_) hrest x hx
          rcases List.mem_append.mp hy with h | h
          · exact hacc y h
          · rw [List.mem_singleton.mp h]
            exact hseg seg (by simp) h1.1 h1.2 h2

theorem strSplit_no_sep (s : String) : ∀ x ∈ strSplit '/' s, '/' ∉ x.data := by
  intro x hx
  obtain ⟨g, hg, rfl⟩ := List.mem_map.mp hx
  simpa using chSplit_mem_no_sep '/' s.data g hg

theorem resolve_out_wf (cwd : List String) (hcwd : ∀ x ∈ cwd, '/' ∉ x.data) (p : String) :
    ∀ x ∈ resolveSegs cwd p, WFSeg x := by
  intro x hx
  unfold resolveSegs at hx
  have base : ∀ (l : List String), (∀ y ∈ l, '/' ∉ y.data) →
      ∀ z ∈ normSegs l, WFSeg z := by
    intro l hl z hz
    unfold normSegs at hz
    refine normAcc_out l [] (by simp) ?_ z hz
    intro s hs h1 h2 h3
    exact ⟨h1, h2, h3, hl s hs⟩
  by_cases hs : strStarts "/" p = true
  · rw [if_pos hs] at hx
    exact base _ (strSplit_no_sep p) x hx
  · rw [if_neg hs] at hx
    refine base _ ?_ x hx
    intro y hy
    rcases List.mem_append.mp hy with h | h
    · exact hcwd y h
    · exact strSplit_no_sep p y h

theorem strMap_eta : ∀ (l : List String), (l.map (·.data)).map (fun cs => (⟨cs⟩ : String)) = l
  | [] => rfl
  | a :: t => by simp [strmk_eta, strMap_eta t]

theorem resolveSegs_renderAbs (cwd : List String) :
    ∀ (segs : List String), (∀ s ∈ segs, WFSeg s) → resolveSegs cwd (renderAbs segs) = segs := by
  intro segs hwf
  cases segs with
  | nil =>
      have h1 : renderAbs [] = "/" := by decide
      rw [h1]
      unfold resolveSegs
      rw [if_pos (by decide)]
      decide
  | cons x xs =>
      have hns : ∀ s ∈ x :: xs, '/' ∉ s.data := fun s hs => (hwf s hs).2.2.2
      have hdata : (renderAbs (x :: xs)).data = '/' :: (strJoin "/" (x :: xs)).data := by
        unfold renderAbs
        rw [strData_append]
        rfl
      have hstart : strStarts "/" (renderAbs (x :: xs)) = true := by
        unfold strStarts
        rw [hdata]
        simp [List.isPrefixOf]
      unfold resolveSegs
      rw [if_pos hstart]
      have hsplit : strSplit '/' (renderAbs (x :: xs)) = "" :: x :: xs := by
        unfold strSplit
        rw [hdata]
        have hcons : chSplit '/' ('/' :: (strJoin "/" (x :: xs)).data)
            = [] :: chSplit '/' (strJoin "/" (x :: xs)).data := by
          simp [chSplit]
        rw [hcons, chSplit_strJoin (x :: xs) hns (by simp)]
        show (⟨[]⟩ : String) :: ((x :: xs).map (·.data)).map (fun cs => (⟨cs⟩ : String)) = _
        rw [strMap_eta]
      rw [hsplit]
      unfold normSegs
      have hstep : normAcc ([] : List String) (("" : String) :: x :: xs) = normAcc [] (x :: xs) := by
        simp [normAcc]
      rw [hstep, normAcc_wf_id (x :: xs) [] (fun s hs => ⟨(hwf s hs).1, (hwf s hs).2.1, (hwf s hs).2.2.1⟩)]
      exact List.nil_append _

theorem urlparse_file_slash (x : String) :
    urlparseLite ("file://" ++ ("/" ++ x)) = ⟨"file", "", "/" ++ x⟩ := by
  have hd : ("file://" ++ ("/" ++ x)).data
      = 'f' :: 'i' :: 'l' :: 'e' :: ':' :: '/' :: '/' :: '/' :: x.data := by
    rw [strData_append, strData_append]
    rfl
  have hslash : ("/" ++ x).data = '/' :: x.data := by
    rw [strData_append]
    rfl
  have hpath : (⟨'/' :: x.data⟩ : String) = "/" ++ x := by
    rw [← hslash, strmk_eta]
  have hsp : splitSchemeAux ('f' :: 'i' :: 'l' :: 'e' :: ':' :: '/' :: '/' :: '/' :: x.data)
      = some (['f', 'i', 'l', 'e'], '/' :: '/' :: '/' :: x.data) := by
    simp [splitSchemeAux]
  unfold urlparseLite
  rw [hd, hsp]
  simp [isSchemeChar, hpath]

theorem renderAbs_eq_slash (segs : List String) : renderAbs segs = "/" ++ strJoin "/" segs := rfl

theorem canon_fixpoint_abs (cwd : List String)
    (segs : List String) (hwf : ∀ x ∈ segs, WFSeg x) (root : Option String)
    (hroot : ∀ r, root = some r → (resolveSegs cwd r).isPrefixOf segs = false) :
    canonicalizeFileUri cwd ("file://" ++ renderAbs segs) root = "file://" ++ renderAbs segs := by
  have hp : urlparseLite ("file://" ++ renderAbs segs) = ⟨"file", "", renderAbs segs⟩ := by
    rw [renderAbs_eq_slash]
    exact urlparse_file_slash _
  simp only [canonicalizeFileUri, hp]
  norm_num
  rw [resolveSegs_renderAbs cwd segs hwf]
  cases root with
  | none => rfl
  | some r =>
      dsimp only
      rw [if_neg]
      intro hc
      have h2 := hroot r rfl
      have h3 := List.isPrefixOf_iff_prefix.mpr hc
      rw [h2] at h3
      cases h3

theorem scheme_of_fileStart {u : String} (h : strStarts "file://" u = true) :
    (urlparseLite u).scheme = "file" := by
  obtain ⟨t, ht⟩ := isPre_ex (p := ("file://" : String).data) (l := u.data) h
  have hu : u = ⟨'f' :: 'i' :: 'l' :: 'e' :: ':' :: '/' :: '/' :: t⟩ := by
    rw [← strmk_eta u, ht]
    rfl
  subst hu
  unfold urlparseLite
  simp only [splitSchemeAux]
  norm_num [isSchemeChar]
  rfl

theorem canon_of_scheme_file (cwd : List String) (u : String) (root : Option String)
    (hs : (urlparseLite u).scheme = "file") :
    ∃ z, canonicalizeFileUri cwd u root = "file://" ++ z := by
  simp only [canonicalizeFileUri, hs]
  norm_num
  cases root with
  | none => exact ⟨_, rfl⟩
  | some r =>
      dsimp only
      split
      · exact ⟨_, rfl⟩
      · exact ⟨_, rfl⟩

theorem strStarts_self_append (p z : String) : strStarts p (p ++ z) = true := by
  unfold strStarts
  rw [strData_append]
  exact isPre_self_append _ _

theorem canon_startsWith (cwd : List String) {u : String} (root : Option String)
    (h : strStarts "file://" u = true) :
    strStarts "file://" (canonicalizeFileUri cwd u root) = true := by
  obtain ⟨z, hz⟩ := canon_of_scheme_file cwd u root (scheme_of_fileStart h)
  rw [hz]
  exact strStarts_self_append _ _

theorem canon_pass (cwd : List String) (u : String) (root : Option String)
    (h1 : (urlparseLite u).scheme ≠ "") (h2 : (urlparseLite u).scheme ≠ "file") :
    canonicalizeFileUri cwd u root = u := by
  simp only [canonicalizeFileUri]
  rw [if_pos (by simp [h1, h2])]

/-- The else branch of the canonicalizer, as an equation. -/
theorem canon_not_pass (cwd : List String) (u : String) (root : Option String)
    (hs : ¬ ((urlparseLite u).scheme ≠ "" ∧ (urlparseLite u).scheme ≠ "file")) :
    canonicalizeFileUri cwd u root =
      (let p := if (urlparseLite u).scheme = "file" then (urlparseLite u).path else u
       let segs := resolveSegs cwd p
       match root with
       | some r =>
           let rsegs := resolveSegs cwd r
           if rsegs.isPrefixOf segs then "file://" ++ renderRel (segs.drop rsegs.length)
           else "file://" ++ renderAbs segs
       | none => "file://" ++ renderAbs segs) := by
  simp only [canonicalizeFileUri]
  rw [if_neg (by simpa using hs)]

theorem strJoin_cons_data (x : String) (rest : List String) :
    ∃ t, (strJoin "/" (x :: rest)).data = x.data ++ t := by
  cases rest with
  | nil => exact ⟨[], by simp [strJoin]⟩
  | cons y ys =>
      refine ⟨('/' :: (strJoin "/" (y :: ys)).data), ?_⟩
      show ((x ++ "/") ++ strJoin "/" (y :: ys)).data = _
      rw [strData_append, strData_append]
      simp

theorem strStarts_fileRel (xs : List String) (hwf : ∀ x ∈ xs, WFSeg x) :
    strStarts "file:///" ("file://" ++ renderRel xs) = false := by
  unfold strStarts
  rw [strData_append]
  have h3 : ("file:///" : String).data = ("file://" : String).data ++ ['/'] := rfl
  rw [h3, isPre_append_cancel]
  cases xs with
  | nil => decide
  | cons x rest =>
      obtain ⟨t, ht⟩ := strJoin_cons_data x rest
      have hx := hwf x (by simp)
      have hne : x.data ≠ [] := fun hn => hx.1 (strdata_nil hn)
      show List.isPrefixOf ['/'] (renderRel (x :: rest)).data = false
      have hrr : (renderRel (x :: rest)).data = x.data ++ t := ht
      rw [hrr]
      cases hd : x.data with
      | nil => exact absurd hd hne
      | cons c cs =>
          have hc : c ≠ '/' := by
            intro hcc
            exact hx.2.2.2 (by rw [hd, hcc]; simp)
          simp [List.isPrefixOf, hc, Ne.symm hc]

theorem strStarts_file3_file2 {u : String} (h : strStarts "file:///" u = true) :
    strStarts "file://" u = true := by
  unfold strStarts at h ⊢
  obtain ⟨t, ht⟩ := isPre_ex h
  rw [ht]
  have h3 : ("file:///" : String).data = ("file://" : String).data ++ ['/'] := rfl
  rw [h3, List.append_assoc]
  exact isPre_self_append _ _

/-- **C7** (corrected).  URI canonicalization is *not* idempotent in
general (see `claim_c7_counterexample`): a root-relative output
`file://<rel>` re-parses its first segment as a URL authority.  The
amended claim proved here: canonicalization is idempotent (i) for URIs
with a nonempty non-`file` scheme (pass-through), (ii) for every input
when no root is configured, and (iii) with a root, whenever the first
canonicalization emits an absolute `file:///` URI (root unset or path
outside root).  The `cwd` hypothesis says the modelled working directory
consists of separator-free segments. -/
theorem claim_c7_canonicalize_idempotent_amended :
    (∀ (cwd : List String) (u : String) (root : Option String),
        (urlparseLite u).scheme ≠ "" → (urlparseLite u).scheme ≠ "file" →
        canonicalizeFileUri cwd (canonicalizeFileUri cwd u root) root = canonicalizeFileUri cwd u root)
    ∧ (∀ (cwd : List String) (u : String), (∀ x ∈ cwd, '/' ∉ x.data) →
        canonicalizeFileUri cwd (canonicalizeFileUri cwd u none) none = canonicalizeFileUri cwd u none)
    ∧ (∀ (cwd : List String) (u r : String), (∀ x ∈ cwd, '/' ∉ x.data) →
        strStarts "file:///" (canonicalizeFileUri cwd u (some r)) = true →
        canonicalizeFileUri cwd (canonicalizeFileUri cwd u (some r)) (some r)
          = canonicalizeFileUri cwd u (some r)) := by
  refine ⟨?_, ?_, ?_⟩
  · intro cwd u root h1 h2
    rw [canon_pass cwd u root h1 h2]
    exact canon_pass cwd u root h1 h2
  · intro cwd u hcwd
    by_cases hp : (urlparseLite u).scheme ≠ "" ∧ (urlparseLite u).scheme ≠ "file"
    · rw [canon_pass cwd u none hp.1 hp.2]
      exact canon_pass cwd u none hp.1 hp.2
    · rw [canon_not_pass cwd u none hp]
      exact canon_fixpoint_abs cwd _ (resolve_out_wf cwd hcwd _) none (fun r h => by cases h)
  · intro cwd u r hcwd habs
    by_cases hp : (urlparseLite u).scheme ≠ "" ∧ (urlparseLite u).scheme ≠ "file"
    · rw [canon_pass cwd u (some r) hp.1 hp.2] at habs ⊢
      exact absurd (scheme_of_fileStart (strStarts_file3_file2 habs)) hp.2
    · have heq := canon_not_pass cwd u (some r) hp
      simp only at heq
      set p := if (urlparseLite u).scheme = "file" then (urlparseLite u).path else u with hpdef
      set segs := resolveSegs cwd p with hsegs
      set rsegs := resolveSegs cwd r with hrsegs
      by_cases hpre : rsegs.isPrefixOf segs = true
      · rw [heq, if_pos hpre] at habs
        have hwfdrop : ∀ x ∈ segs.drop rsegs.length, WFSeg x := by
          intro x hx
          exact resolve_out_wf cwd hcwd p x (List.drop_subset _ _ hx)
        rw [strStarts_fileRel _ hwfdrop] at habs
        cases habs
      · have hpre' : rsegs.isPrefixOf segs = false := by
          cases hb : rsegs.isPrefixOf segs with
          | false => rfl
          | true => exact absurd hb hpre
        rw [heq, if_neg (by rw [hpre']; simp)]
        exact canon_fixpoint_abs cwd segs (resolve_out_wf cwd hcwd p) (some r)
          (fun r' hr' => by cases hr'; exact hpre')

/-- **C7** counterexample: the claim as stated — idempotence for *every*
URI and root — fails.  With root `/proj`, `file:///proj/sub/a`
canonicalizes to the root-relative `file://sub/a`; canonicalizing that
again parses `sub` as a URL authority and yields `file:///a`. -/
theorem claim_c7_counterexample :
    canonicalizeFileUri [] (canonicalizeFileUri [] "file:///proj/sub/a" (some "/proj")) (some "/proj")
      ≠ canonicalizeFileUri [] "file:///proj/sub/a" (some "/proj") := by
  decide

theorem claim_c7_witness :
    (canonicalizeFileUri [] (canonicalizeFileUri [] "https://example.com/x" (some "/proj")) (some "/proj")
        = canonicalizeFileUri [] "https://example.com/x" (some "/proj"))
    ∧ (canonicalizeFileUri [] (canonicalizeFileUri [] "file:///tmp/a" none) none
        = canonicalizeFileUri [] "file:///tmp/a" none)
    ∧ (canonicalizeFileUri [] (canonicalizeFileUri [] "file:///tmp/a" (some "/proj")) (some "/proj")
        = canonicalizeFileUri [] "file:///tmp/a" (some "/proj")) :=
  ⟨claim_c7_canonicalize_idempotent_amended.1 [] "https://example.com/x" (some "/proj")
      (by decide) (by decide),
   claim_c7_canonicalize_idempotent_amended.2.1 [] "file:///tmp/a" (by simp),
   claim_c7_canonicalize_idempotent_amended.2.2 [] "file:///tmp/a" "/proj" (by simp) (by decide)⟩

/-! ## Extractor lemmas (C10) -/

theorem firstStrHit_eq_none (args : Args) :
    ∀ (keys : List String), firstStrHit args keys = none →
      ∀ k ∈ keys, ∀ s', Args.get args k = some (.jstr s') → s' = ""
  | [], _, k, hk => by cases hk
  | k0 :: ks, h, k, hk => by
      intro s' hs'
      cases hg : Args.get args k0 with
      | none =>
          simp only [firstStrHit, hg] at h
          rcases List.mem_cons.mp hk with rfl | hmem
          · rw [hg] at hs'; cases hs'
          · exact firstStrHit_eq_none args ks h k hmem s' hs'
      | some v =>
          cases v with
          | jstr sv =>
              simp only [firstStrHit, hg] at h
              by_cases hemp : sv = ""
              · rw [if_pos hemp] at h
                rcases List.mem_cons.mp hk with rfl | hmem
                · rw [hg] at hs'
                  cases hs'
                  exact hemp
                · exact firstStrHit_eq_none args ks h k hmem s' hs'
              · rw [if_neg hemp] at h
                cases h
          | jint n =>
              simp only [firstStrHit, hg] at h
              rcases List.mem_cons.mp hk with rfl | hmem
              · rw [hg] at hs'; cases hs'
              · exact firstStrHit_eq_none args ks h k hmem s' hs'
          | jbool b =>
              simp only [firstStrHit, hg] at h
              rcases List.mem_cons.mp hk with rfl | hmem
              · rw [hg] at hs'; cases hs'
              · exact firstStrHit_eq_none args ks h k hmem s' hs'
          | jnull =>
              simp only [firstStrHit, hg] at h
              rcases List.mem_cons.mp hk with rfl | hmem
              · rw [hg] at hs'; cases hs'
              · exact firstStrHit_eq_none args ks h k hmem s' hs'
          | jarr xs =>
              simp only [firstStrHit, hg] at h
              rcases List.mem_cons.mp hk with rfl | hmem
              · rw [hg] at hs'; cases hs'
              · exact firstStrHit_eq_none args ks h k hmem s' hs'
          | jobj fs =>
              simp only [firstStrHit, hg] at h
              rcases List.mem_cons.mp hk with rfl | hmem
              · rw [hg] at hs'; cases hs'
              · exact firstStrHit_eq_none args ks h k hmem s' hs'

theorem firstStrHit_spec (args : Args) :
    ∀ (keys : List String), firstStrHit args keys = none ∨
      ∃ s', firstStrHit args keys = some s' ∧ s' ≠ ""
        ∧ ∃ k ∈ keys, Args.get args k = some (.jstr s')
  | [] => Or.inl rfl
  | k0 :: ks => by
      cases hg : Args.get args k0 with
      | none =>
          rcases firstStrHit_spec args ks with h | ⟨s', h1, h2, k, hk, hget⟩
          · left; simp only [firstStrHit, hg]; exact h
          · right
            exact ⟨s', by simp only [firstStrHit, hg]; exact h1, h2, k, List.mem_cons_of_mem k0 hk, hget⟩
      | some v =>
          cases v with
          | jstr sv =>
              by_cases hemp : sv = ""
              · rcases firstStrHit_spec args ks with h | ⟨s', h1, h2, k, hk, hget⟩
                · left; simp only [firstStrHit, hg, if_pos hemp]; exact h
                · right
                  exact ⟨s', by simp only [firstStrHit, hg, if_pos hemp]; exact h1, h2, k,
                    List.mem_cons_of_mem k0 hk, hget⟩
              · right
                exact ⟨sv, by simp only [firstStrHit, hg, if_neg hemp], hemp, k0, List.mem_cons_self k0 ks, hg⟩
          | jint n =>
              rcases firstStrHit_spec args ks with h | ⟨s', h1, h2, k, hk, hget⟩
              · left; simp only [firstStrHit, hg]; exact h
              · right
                exact ⟨s', by simp only [firstStrHit, hg]; exact h1, h2, k, List.mem_cons_of_mem k0 hk, hget⟩
          | jbool b =>
              rcases firstStrHit_spec args ks with h | ⟨s', h1, h2, k, hk, hget⟩
              · left; simp only [firstStrHit, hg]; exact h
              · right
                exact ⟨s', by simp only [firstStrHit, hg]; exact h1, h2, k, List.mem_cons_of_mem k0 hk, hget⟩
          | jnull =>
              rcases firstStrHit_spec args ks with h | ⟨s', h1, h2, k, hk, hget⟩
              · left; simp only [firstStrHit, hg]; exact h
              · right
                exact ⟨s', by simp only [firstStrHit, hg]; exact h1, h2, k, List.mem_cons_of_mem k0 hk, hget⟩
          | jarr xs =>
              rcases firstStrHit_spec args ks with h | ⟨s', h1, h2, k, hk, hget⟩
              · left; simp only [firstStrHit, hg]; exact h
              · right
                exact ⟨s', by simp only [firstStrHit, hg]; exact h1, h2, k, List.mem_cons_of_mem k0 hk, hget⟩
          | jobj fs =>
              rcases firstStrHit_spec args ks with h | ⟨s', h1, h2, k, hk, hget⟩
              · left; simp only [firstStrHit, hg]; exact h
              · right
                exact ⟨s', by simp only [firstStrHit, hg]; exact h1, h2, k, List.mem_cons_of_mem k0 hk, hget⟩

theorem firstStrHit_congr (a1 a2 : Args) :
    ∀ (keys : List String), (∀ k ∈ keys, Args.get a1 k = Args.get a2 k) →
      firstStrHit a1 keys = firstStrHit a2 keys
  | [], _ => rfl
  | k0 :: ks, h => by
      have h0 := h k0 (List.mem_cons_self k0 ks)
      have hrest := firstStrHit_congr a1 a2 ks (fun k hk => h k (List.mem_cons_of_mem k0 hk))
      simp only [firstStrHit, h0, hrest]

theorem fileKeys_not_url : ∀ k ∈ FILE_ARGS, URL_ARGS.contains k = false := by decide

theorem argsGet_filter_urlKeys :
    ∀ (args : Args) (k : String), URL_ARGS.contains k = false →
      Args.get (args.filter (fun p => !(URL_ARGS.contains p.1))) k = Args.get args k
  | [], _, _ => rfl
  | p :: rest, k, hk => by
      have hrec := argsGet_filter_urlKeys rest k hk
      have hkm : k ∉ URL_ARGS := by simpa using hk
      by_cases hcm : p.1 ∈ URL_ARGS
      · have hne : ¬ (p.1 = k) := fun he => hkm (he ▸ hcm)
        simp [Args.get, List.filter, List.find?, hcm, hne] at hrec ⊢
        exact hrec
      · by_cases he : p.1 = k
        · simp [Args.get, List.filter, List.find?, hcm, he, hkm]
        · simp [Args.get, List.filter, List.find?, hcm, he] at hrec ⊢
          exact hrec

theorem mkFileUri_startsWith (s : String) : strStarts "file://" (mkFileUri s) = true := by
  unfold mkFileUri
  by_cases h : strStarts "file://" s = true
  · rw [if_pos h]; exact h
  · rw [if_neg h]; exact strStarts_self_append _ _

/-- **C10** (confirmed).  `DefaultResourceExtractor.extract` gives file-path
argument keys precedence over URL keys: whenever some file key holds a
non-empty string, the result is the canonicalized `file://` URI derived
from the first such key, unchanged if all URL-key bindings are removed;
keys bound to empty strings or non-strings are skipped; when no recognized
key holds a non-empty string the result is `none`, and `_process_tool_call`
performs no store call and returns the empty id map with the state
untouched. -/
theorem claim_c10_extractor_precedence :
    (∀ (cwd : List String) (root : Option String) (tname : String) (args : Args),
        (∃ k ∈ FILE_ARGS, ∃ s', Args.get args k = some (.jstr s') ∧ s' ≠ "") →
        ∃ s', firstStrHit args FILE_ARGS = some s'
          ∧ (∃ k ∈ FILE_ARGS, Args.get args k = some (.jstr s'))
          ∧ defaultExtract cwd root tname args = some (canonicalizeFileUri cwd (mkFileUri s') root)
          ∧ strStarts "file://" (canonicalizeFileUri cwd (mkFileUri s') root) = true
          ∧ defaultExtract cwd root tname args
              = defaultExtract cwd root tname (args.filter (fun p => !(URL_ARGS.contains p.1))))
    ∧ (∀ (cwd : List String) (root : Option String) (tname : String) (args : Args),
        (∀ k ∈ FILE_ARGS ++ URL_ARGS, ∀ s', Args.get args k = some (.jstr s') → s' = "") →
        defaultExtract cwd root tname args = none)
    ∧ (∀ (c : Ctx) (agentId : Nat) (cid : String) (tc : ToolCallM) (s : TMState),
        c.extract tc.name tc.args = none →
        processToolCall c agentId cid tc s = ([], s)) := by
  refine ⟨?_, ?_, ?_⟩
  · intro cwd root tname args hex
    rcases firstStrHit_spec args FILE_ARGS with hnone | ⟨s', h1, _h2, k, hk, hget⟩
    · exfalso
      rcases hex with ⟨k, hk, s', hget, hne⟩
      exact hne (firstStrHit_eq_none args FILE_ARGS hnone k hk s' hget)
    · refine ⟨s', h1, ⟨k, hk, hget⟩, ?_, canon_startsWith cwd root (mkFileUri_startsWith s'), ?_⟩
      · simp only [defaultExtract, extractRaw, h1]
        rw [if_pos (mkFileUri_startsWith s')]
      · have hsame : firstStrHit (args.filter (fun p => !(URL_ARGS.contains p.1))) FILE_ARGS
            = firstStrHit args FILE_ARGS :=
          firstStrHit_congr _ args FILE_ARGS
            (fun k' hk' => argsGet_filter_urlKeys args k' (fileKeys_not_url k' hk'))
        simp only [defaultExtract, extractRaw, h1, hsame]
  · intro cwd root tname args hall
    have hfile : firstStrHit args FILE_ARGS = none := by
      rcases firstStrHit_spec args FILE_ARGS with h | ⟨s', _, h2, k, hk, hget⟩
      · exact h
      · exact absurd (hall k (List.mem_append.mpr (Or.inl hk)) s' hget) h2
    have hurl : firstStrHit args URL_ARGS = none := by
      rcases firstStrHit_spec args URL_ARGS with h | ⟨s', _, h2, k, hk, hget⟩
      · exact h
      · exact absurd (hall k (List.mem_append.mpr (Or.inr hk)) s' hget) h2
    simp only [defaultExtract, extractRaw, hfile, hurl]
  · intro c agentId cid tc s hnone
    simp only [processToolCall, hnone]

theorem claim_c10_witness :
    (∃ s', firstStrHit [("url", JVal.jstr "https://e.com"), ("path", JVal.jstr "/tmp/a")] FILE_ARGS = some s'
        ∧ (∃ k ∈ FILE_ARGS, Args.get [("url", JVal.jstr "https://e.com"), ("path", JVal.jstr "/tmp/a")] k
            = some (.jstr s'))
        ∧ defaultExtract [] none "read_file" [("url", JVal.jstr "https://e.com"), ("path", JVal.jstr "/tmp/a")]
            = some (canonicalizeFileUri [] (mkFileUri s') none)
        ∧ strStarts "file://" (canonicalizeFileUri [] (mkFileUri s') none) = true
        ∧ defaultExtract [] none "read_file" [("url", JVal.jstr "https://e.com"), ("path", JVal.jstr "/tmp/a")]
            = defaultExtract [] none "read_file"
                (([("url", JVal.jstr "https://e.com"), ("path", JVal.jstr "/tmp/a")] : Args).filter
                  (fun p => !(URL_ARGS.contains p.1))))
    ∧ defaultExtract [] none "bash" [("command", JVal.jstr "ls"), ("path", JVal.jstr "")] = none
    ∧ processToolCall ⟨fun s => s, fun _ _ => none, fun _ => []⟩ 7 "conv"
        ⟨"c9", "bash", [("command", JVal.jstr "ls")]⟩ TMState.init = ([], TMState.init) :=
  ⟨claim_c10_extractor_precedence.1 [] none "read_file" _
      ⟨"path", by decide, "/tmp/a", rfl, by decide⟩,
   claim_c10_extractor_precedence.2.1 [] none "bash" _
      (by
        intro k hk s' hs'
        fin_cases hk <;> simp [Args.get, List.find?] at hs' <;> exact hs'.symm),
   claim_c10_extractor_precedence.2.2 ⟨fun s => s, fun _ _ => none, fun _ => []⟩ 7 "conv"
      ⟨"c9", "bash", [("command", JVal.jstr "ls")]⟩ TMState.init rfl⟩

/-! ## Step-description lemmas for the ingestion engine -/

theorem latestBy_mem {α : Type} (f : α → Nat) :
    ∀ (l : List α) (x : α), latestBy f l = some x → x ∈ l := by
  have gen : ∀ (l : List α) (acc : Option α) (x : α),
      l.foldl (fun acc y =>
        match acc with
        | none => some y
        | some z => if f y > f z then some y else some z) acc = some x →
      x ∈ l ∨ acc = some x := by
    intro l
    induction l with
    | nil => intro acc x h; exact Or.inr h
    | cons y ys ih =>
        intro acc x h
        simp only [List.foldl] at h
        rcases ih _ x h with hmem | hacc
        · exact Or.inl (List.mem_cons_of_mem y hmem)
        · cases acc with
          | none =>
              cases hacc
              exact Or.inl (List.mem_cons_self y ys)
          | some z =>
              dsimp only at hacc
              by_cases hgt : f y > f z
              · rw [if_pos hgt] at hacc
                cases hacc
                exact Or.inl (List.mem_cons_self y ys)
              · rw [if_neg hgt] at hacc
                exact Or.inr hacc
  intro l x h
  rcases gen l none x h with hmem | hacc
  · exact hmem
  · cases hacc

theorem getLastAgentText_mem {g : GraphState} {cid : String} {a : AgentTextN}
    (h : getLastAgentText g cid = some a) : a ∈ g.agentTexts ∧ a.conversationId = cid := by
  have hm := latestBy_mem _ _ _ h
  have := List.mem_filter.mp hm
  exact ⟨this.1, by simpa using this.2⟩

theorem getLastNodeInTurn_mem {g : GraphState} {cid : String} {turn : Int} {n : MsgNode}
    (h : getLastNodeInTurn g cid turn = some n) : n ∈ msgNodes g := by
  have hm := latestBy_mem _ _ _ h
  rcases List.mem_append.mp hm with hu | ha
  · obtain ⟨u, hu', rfl⟩ := List.mem_map.mp hu
    exact List.mem_append.mpr (Or.inl (List.mem_map.mpr ⟨u, (List.mem_filter.mp hu').1, rfl⟩))
  · obtain ⟨a, ha', rfl⟩ := List.mem_map.mp ha
    exact List.mem_append.mpr (Or.inr (List.mem_map.mpr ⟨a, (List.mem_filter.mp ha').1, rfl⟩))

theorem getResourceByUri_none {g : GraphState} {uri : String}
    (h : getResourceByUri g uri = none) : ∀ r ∈ g.resources, r.uri ≠ uri := by
  intro r hr
  have := List.find?_eq_none.mp h r hr
  simpa using this

theorem getResourceByUri_some {g : GraphState} {uri : String} {r : ResourceN}
    (h : getResourceByUri g uri = some r) : r ∈ g.resources ∧ r.uri = uri := by
  have h1 := List.find?_some h
  have h2 := List.mem_of_find?_eq_some h
  exact ⟨h2, by simpa using h1⟩

theorem getResourceVersionByHash_some {g : GraphState} {uri hsh : String} {v : ResourceVersionN}
    (h : getResourceVersionByHash g uri hsh = some v) :
    v ∈ g.versions ∧ v.uri = uri ∧ v.contentHash = hsh := by
  have h1 := List.find?_some h
  have h2 := List.mem_of_find?_eq_some h
  simp only [decide_eq_true_eq] at h1
  exact ⟨h2, h1.1, h1.2⟩

theorem getLast?_mem {α : Type} : ∀ {l : List α} {x : α}, l.getLast? = some x → x ∈ l
  | [], x, h => by cases h
  | [a], x, h => by
      simp only [List.getLast?_singleton, Option.some.injEq] at h
      simp [h]
  | a :: b :: t, x, h => by
      rw [List.getLast?_cons_cons] at h
      exact List.mem_cons_of_mem a (getLast?_mem h)

/-- Effect of `_add_user_message` on the session state. -/
theorem addUserMessage_desc (c : Ctx) (cid content : String) (s : TMState) :
    ∃ (u : UserTextN) (E : List MessageEdgeM),
      (addUserMessage c cid content s).1 = u
      ∧ u.id = s.fresh ∧ u.createdAt = s.fresh ∧ u.conversationId = cid
      ∧ u.text = content ∧ u.turnIndex = getMaxTurnIndex s.graph cid + 1
      ∧ (addUserMessage c cid content s).2.graph.userTexts = s.graph.userTexts ++ [u]
      ∧ (addUserMessage c cid content s).2.graph.agentTexts = s.graph.agentTexts
      ∧ (addUserMessage c cid content s).2.graph.messageEdges = s.graph.messageEdges ++ E
      ∧ (addUserMessage c cid content s).2.graph.resources = s.graph.resources
      ∧ (addUserMessage c cid content s).2.graph.versions = s.graph.versions
      ∧ (addUserMessage c cid content s).2.graph.toolUseEdges = s.graph.toolUseEdges
      ∧ (addUserMessage c cid content s).2.graph.versionOfEdges = s.graph.versionOfEdges
      ∧ (addUserMessage c cid content s).2.toolResults = s.toolResults
      ∧ s.fresh < (addUserMessage c cid content s).2.fresh
      ∧ (E = [] ∨ ∃ (a : AgentTextN) (eid : Nat), getLastAgentText s.graph cid = some a
          ∧ E = [⟨eid, a.id, u.id, cid, eid⟩]) := by
  cases hla : getLastAgentText s.graph cid with
  | none =>
      refine ⟨⟨s.fresh, content, cid, getMaxTurnIndex s.graph cid + 1, s.fresh, s.fresh⟩, [], ?_⟩
      simp [addUserMessage, TMState.tick, hla, GraphState.addUser]
      all_goals omega
  | some a =>
      refine ⟨⟨s.fresh, content, cid, getMaxTurnIndex s.graph cid + 1, s.fresh, s.fresh⟩,
        [⟨s.fresh + 1, a.id, s.fresh, cid, s.fresh + 1⟩], ?_⟩
      simp [addUserMessage, TMState.tick, hla, GraphState.addUser, GraphState.addMessageEdge]
      all_goals omega

/-- Effect of the node-and-edge part of `_add_assistant_message`. -/
theorem addAgentCore_desc (cid : String) (m : MessageM) (s : TMState) :
    ∃ (a : AgentTextN) (E : List MessageEdgeM),
      (addAgentCore cid m s).1 = a
      ∧ a.id = s.fresh ∧ a.createdAt = s.fresh ∧ a.conversationId = cid
      ∧ a.text = m.content ∧ a.turnIndex = max 0 (getMaxTurnIndex s.graph cid)
      ∧ a.toolUses = m.toolCalls.map (fun tc => ToolUseRecordM.mk tc.id tc.name tc.args)
      ∧ (addAgentCore cid m s).2.graph.userTexts = s.graph.userTexts
      ∧ (addAgentCore cid m s).2.graph.agentTexts = s.graph.agentTexts ++ [a]
      ∧ (addAgentCore cid m s).2.graph.messageEdges = s.graph.messageEdges ++ E
      ∧ (addAgentCore cid m s).2.graph.resources = s.graph.resources
      ∧ (addAgentCore cid m s).2.graph.versions = s.graph.versions
      ∧ (addAgentCore cid m s).2.graph.toolUseEdges = s.graph.toolUseEdges
      ∧ (addAgentCore cid m s).2.graph.versionOfEdges = s.graph.versionOfEdges
      ∧ (addAgentCore cid m s).2.toolResults = s.toolResults
      ∧ (addAgentCore cid m s).2.vrows = s.vrows
      ∧ s.fresh < (addAgentCore cid m s).2.fresh
      ∧ (E = [] ∨ ∃ (n : MsgNode) (eid : Nat),
          getLastNodeInTurn s.graph cid (max 0 (getMaxTurnIndex s.graph cid)) = some n
          ∧ E = [⟨eid, n.nid, a.id, cid, eid⟩]) := by
  cases hln : getLastNodeInTurn s.graph cid (max 0 (getMaxTurnIndex s.graph cid)) with
  | none =>
      refine ⟨⟨s.fresh, m.content, cid, max 0 (getMaxTurnIndex s.graph cid),
        m.toolCalls.map (fun tc => ToolUseRecordM.mk tc.id tc.name tc.args), s.fresh, s.fresh⟩, [], ?_⟩
      simp [addAgentCore, TMState.tick, hln, GraphState.addAgent]
      all_goals omega
  | some n =>
      refine ⟨⟨s.fresh, m.content, cid, max 0 (getMaxTurnIndex s.graph cid),
        m.toolCalls.map (fun tc => ToolUseRecordM.mk tc.id tc.name tc.args), s.fresh, s.fresh⟩,
        [⟨s.fresh + 1, n.nid, s.fresh, cid, s.fresh + 1⟩], ?_⟩
      simp [addAgentCore, TMState.tick, hln, GraphState.addAgent, GraphState.addMessageEdge]
      all_goals omega

/-- `_process_tool_call` never touches message nodes, message edges, the
scratch map or the vector store, and only advances the allocator. -/
theorem processToolCall_frame (c : Ctx) (aid : Nat) (cid : String) (tc : ToolCallM) (s : TMState) :
    (processToolCall c aid cid tc s).2.graph.userTexts = s.graph.userTexts
    ∧ (processToolCall c aid cid tc s).2.graph.agentTexts = s.graph.agentTexts
    ∧ (processToolCall c aid cid tc s).2.graph.messageEdges = s.graph.messageEdges
    ∧ (processToolCall c aid cid tc s).2.toolResults = s.toolResults
    ∧ (processToolCall c aid cid tc s).2.vrows = s.vrows
    ∧ s.fresh ≤ (processToolCall c aid cid tc s).2.fresh := by
  cases hex : c.extract tc.name tc.args with
  | none => simp [processToolCall, hex]
  | some uri =>
      cases hlk : lookupStr s.toolResults tc.id with
      | none => simp [processToolCall, hex, hlk]
      | some content =>
          by_cases hh : c.hash content = ""
          · simp [processToolCall, hex, hlk, hh]
          · cases hr : getResourceByUri s.graph uri with
            | some r =>
                by_cases hsame : r.currentContentHash = some (c.hash content)
                · cases hv : getResourceVersionByHash s.graph uri (c.hash content) with
                  | some v =>
                      simp [processToolCall, hex, hlk, if_neg hh, hr, if_pos hsame, hv,
                        TMState.tick, GraphState.addToolUseEdge]
                  | none =>
                      simp [processToolCall, hex, hlk, if_neg hh, hr, if_pos hsame, hv]
                · simp [processToolCall, hex, hlk, if_neg hh, hr, if_neg hsame,
                    TMState.tick, GraphState.addVersion, GraphState.updateResourceHash,
                    GraphState.addVersionOfEdge, GraphState.addToolUseEdge]
                  omega
            | none =>
                simp [processToolCall, hex, hlk, if_neg hh, hr, createResourceMerge,
                  TMState.tick, GraphState.addResource, GraphState.addVersion,
                  GraphState.addVersionOfEdge, GraphState.addToolUseEdge]
                omega

/-- The tool-call fold shares `_process_tool_call`'s frame. -/
theorem foldToolCalls_frame (c : Ctx) (aid : Nat) (cid : String) :
    ∀ (tcs : List ToolCallM) (st : List (String × Nat) × TMState),
      (foldToolCalls c aid cid tcs st).2.graph.userTexts = st.2.graph.userTexts
      ∧ (foldToolCalls c aid cid tcs st).2.graph.agentTexts = st.2.graph.agentTexts
      ∧ (foldToolCalls c aid cid tcs st).2.graph.messageEdges = st.2.graph.messageEdges
      ∧ (foldToolCalls c aid cid tcs st).2.toolResults = st.2.toolResults
      ∧ (foldToolCalls c aid cid tcs st).2.vrows = st.2.vrows
      ∧ st.2.fresh ≤ (foldToolCalls c aid cid tcs st).2.fresh
  | [], st => by simp [foldToolCalls]
  | tc :: tcs, st => by
      have hstep := processToolCall_frame c aid cid tc st.2
      have hrest := foldToolCalls_frame c aid cid tcs
        (dictUpdate st.1 (processToolCall c aid cid tc st.2).1, (processToolCall c aid cid tc st.2).2)
      have hfold : foldToolCalls c aid cid (tc :: tcs) st
          = foldToolCalls c aid cid tcs
            (dictUpdate st.1 (processToolCall c aid cid tc st.2).1,
              (processToolCall c aid cid tc st.2).2) := rfl
      rw [hfold]
      refine ⟨?_, ?_, ?_, ?_, ?_, ?_⟩
      · rw [hrest.1, hstep.1]
      · rw [hrest.2.1, hstep.2.1]
      · rw [hrest.2.2.1, hstep.2.2.1]
      · rw [hrest.2.2.2.1, hstep.2.2.2.1]
      · rw [hrest.2.2.2.2.1, hstep.2.2.2.2.1]
      · exact le_trans hstep.2.2.2.2.2 hrest.2.2.2.2.2

/-- **C1** (confirmed).  A user message starts a new turn: the created
`UserText` carries `turn_index = max_turn + 1`; `max_turn` is `-1` exactly
when the conversation has no `UserText` or `AgentText` rows (so the first
user message gets turn 0); an assistant message stays in the current turn:
its `AgentText` carries `turn_index = max(0, max_turn)` (0 in an empty
conversation). -/
theorem claim_c1_turn_index :
    (∀ (c : Ctx) (cid : String) (m : MessageM) (s : TMState),
        m.role = .user →
        ∃ u : UserTextN, (addMessage c cid m s).2.graph.userTexts = s.graph.userTexts ++ [u]
          ∧ u.turnIndex = getMaxTurnIndex s.graph cid + 1
          ∧ (getMaxTurnIndex s.graph cid = -1 → u.turnIndex = 0))
    ∧ (∀ (g : GraphState) (cid : String),
        g.userTexts.filter (fun u => u.conversationId = cid) = [] →
        g.agentTexts.filter (fun a => a.conversationId = cid) = [] →
        getMaxTurnIndex g cid = -1)
    ∧ (∀ (c : Ctx) (cid : String) (m : MessageM) (s : TMState),
        m.role = .assistant →
        ∃ a : AgentTextN, (addMessage c cid m s).2.graph.agentTexts = s.graph.agentTexts ++ [a]
          ∧ a.turnIndex = max 0 (getMaxTurnIndex s.graph cid)
          ∧ (getMaxTurnIndex s.graph cid = -1 → a.turnIndex = 0)) := by
  refine ⟨?_, ?_, ?_⟩
  · intro c cid m s hrole
    obtain ⟨u, E, h1, h2, h3, h4, h5, h6, h7, hrest⟩ := addUserMessage_desc c cid m.content s
    refine ⟨u, ?_, h6, ?_⟩
    · simp only [addMessage, hrole]
      exact h7
    · intro hneg
      rw [h6, hneg]
      rfl
  · intro g cid h1 h2
    unfold getMaxTurnIndex
    rw [h1, h2]
    rfl
  · intro c cid m s hrole
    obtain ⟨a, E, h1, h2, h3, h4, h5, h6, h7, h8, h9, hrest⟩ := addAgentCore_desc cid m s
    refine ⟨a, ?_, h6, ?_⟩
    · simp only [addMessage, hrole, addAssistantMessage]
      rw [(foldToolCalls_frame c (addAgentCore cid m s).1.id cid m.toolCalls
        ([], (addAgentCore cid m s).2)).2.1]
      exact h9
    · intro hneg
      rw [h6, hneg]
      rfl

theorem claim_c1_witness :
    (∃ u : UserTextN, (addMessage ⟨fun h => h, fun _ _ => none, fun _ => []⟩ "c"
          ⟨.user, "hi", [], none⟩ TMState.init).2.graph.userTexts
        = TMState.init.graph.userTexts ++ [u]
        ∧ u.turnIndex = getMaxTurnIndex TMState.init.graph "c" + 1
        ∧ (getMaxTurnIndex TMState.init.graph "c" = -1 → u.turnIndex = 0))
    ∧ getMaxTurnIndex TMState.init.graph "c" = -1
    ∧ (∃ a : AgentTextN, (addMessage ⟨fun h => h, fun _ _ => none, fun _ => []⟩ "c"
          ⟨.assistant, "yo", [], none⟩ TMState.init).2.graph.agentTexts
        = TMState.init.graph.agentTexts ++ [a]
        ∧ a.turnIndex = max 0 (getMaxTurnIndex TMState.init.graph "c")
        ∧ (getMaxTurnIndex TMState.init.graph "c" = -1 → a.turnIndex = 0)) :=
  ⟨claim_c1_turn_index.1 ⟨fun h => h, fun _ _ => none, fun _ => []⟩ "c"
      ⟨.user, "hi", [], none⟩ TMState.init rfl,
   claim_c1_turn_index.2.1 TMState.init.graph "c" rfl rfl,
   claim_c1_turn_index.2.2 ⟨fun h => h, fun _ _ => none, fun _ => []⟩ "c"
      ⟨.assistant, "yo", [], none⟩ TMState.init rfl⟩

/-! ## Preservation of the resource-versioning invariants -/

/-- The changed-hash leaf of `_process_tool_call` preserves `ResInv`. -/
theorem resInv_changed {s s' : TMState} (h : ResInv s) (uri hsh : String)
    (v : ResourceVersionN) (t : Nat)
    (hvuri : v.uri = uri) (hvh : v.contentHash = hsh)
    (hex : ∃ r0 ∈ s.graph.resources, r0.uri = uri)
    (hres : s'.graph.resources = s.graph.resources.map
        (fun r => if r.uri = uri then { r with currentContentHash := some hsh, lastAccessedAt := t } else r))
    (hver : s'.graph.versions = s.graph.versions ++ [v]) : ResInv s' := by
  constructor
  · intro r' hr'
    rw [hres] at hr'
    obtain ⟨r0, hr0, hupd⟩ := List.mem_map.mp hr'
    by_cases hu : r0.uri = uri
    · rw [if_pos hu] at hupd
      refine ⟨v, ?_, ?_⟩
      · unfold lastVersionFor
        rw [hver, ← hupd]
        simp only [List.filter_append]
        have hkeep : List.filter (fun w => decide (w.uri = { r0 with currentContentHash := some hsh, lastAccessedAt := t }.uri)) [v] = [v] := by
          simp [hu, hvuri]
        rw [hkeep]
        exact List.getLast?_concat _
      · rw [← hupd, hvh]
    · rw [if_neg hu] at hupd
      obtain ⟨v0, hv1, hv2⟩ := h.1 r0 hr0
      refine ⟨v0, ?_, by rw [← hupd]; exact hv2⟩
      unfold lastVersionFor at hv1 ⊢
      rw [hver, ← hupd, List.filter_append]
      have hdrop : List.filter (fun w => decide (w.uri = r0.uri)) [v] = [] := by
        simp [hvuri]
        intro hcontra
        exact absurd (hcontra ▸ rfl : r0.uri = uri) hu
      rw [hdrop, List.append_nil]
      exact hv1
  · intro v' hv'
    rw [hver] at hv'
    rcases List.mem_append.mp hv' with hold | hnew
    · obtain ⟨r0, hr0, hruri⟩ := h.2 v' hold
      refine ⟨if r0.uri = uri then { r0 with currentContentHash := some hsh, lastAccessedAt := t } else r0, ?_, ?_⟩
      · rw [hres]
        exact List.mem_map.mpr ⟨r0, hr0, rfl⟩
      · by_cases hu : r0.uri = uri
        · rw [if_pos hu]
          exact hruri
        · rw [if_neg hu]
          exact hruri
    · rw [List.mem_singleton.mp hnew]
      obtain ⟨r0, hr0, hruri⟩ := hex
      refine ⟨{ r0 with currentContentHash := some hsh, lastAccessedAt := t }, ?_, ?_⟩
      · rw [hres]
        exact List.mem_map.mpr ⟨r0, hr0, by rw [if_pos hruri]⟩
      · rw [hvuri]
        exact hruri

/-- The new-resource leaf of `_process_tool_call` preserves `ResInv`. -/
theorem resInv_new {s s' : TMState} (h : ResInv s) (uri hsh : String)
    (rnode : ResourceN) (v : ResourceVersionN)
    (hruri : rnode.uri = uri) (hrh : rnode.currentContentHash = some hsh)
    (hvuri : v.uri = uri) (hvh : v.contentHash = hsh)
    (hnone : ∀ r ∈ s.graph.resources, r.uri ≠ uri)
    (hres : s'.graph.resources = s.graph.resources ++ [rnode])
    (hver : s'.graph.versions = s.graph.versions ++ [v]) : ResInv s' := by
  have hnover : s.graph.versions.filter (fun w => w.uri = uri) = [] := by
    rw [List.filter_eq_nil_iff]
    intro w hw
    obtain ⟨r0, hr0, hr0uri⟩ := h.2 w hw
    simp only [decide_eq_true_eq]
    intro hww
    exact hnone r0 hr0 (hr0uri.trans hww)
  constructor
  · intro r' hr'
    rw [hres] at hr'
    rcases List.mem_append.mp hr' with hold | hnew
    · obtain ⟨v0, hv1, hv2⟩ := h.1 r' hold
      refine ⟨v0, ?_, hv2⟩
      unfold lastVersionFor at hv1 ⊢
      rw [hver, List.filter_append]
      have hdrop : List.filter (fun w => decide (w.uri = r'.uri)) [v] = [] := by
        simp [hvuri]
        intro hcontra
        exact absurd hcontra.symm (hnone r' hold)
      rw [hdrop, List.append_nil]
      exact hv1
    · rw [List.mem_singleton.mp hnew]
      refine ⟨v, ?_, by rw [hrh, hvh]⟩
      unfold lastVersionFor
      rw [hver, List.filter_append, hruri]
      have hkeep : List.filter (fun w => decide (w.uri = uri)) [v] = [v] := by
        simp [hvuri]
      rw [hnover, hkeep]
      rfl
  · intro v' hv'
    rw [hver] at hv'
    rcases List.mem_append.mp hv' with hold | hnew
    · obtain ⟨r0, hr0, hr0uri⟩ := h.2 v' hold
      exact ⟨r0, by rw [hres]; exact List.mem_append.mpr (Or.inl hr0), hr0uri⟩
    · rw [List.mem_singleton.mp hnew]
      refine ⟨rnode, ?_, by rw [hruri, hvuri]⟩
      rw [hres]
      exact List.mem_append.mpr (Or.inr (List.mem_singleton.mpr rfl))

/-- `_process_tool_call` preserves the resource-versioning invariants. -/
theorem processToolCall_resInv (c : Ctx) (aid : Nat) (cid : String) (tc : ToolCallM)
    {s : TMState} (h : ResInv s) : ResInv (processToolCall c aid cid tc s).2 := by
  cases hex : c.extract tc.name tc.args with
  | none =>
      refine resInv_of_eq h ?_ ?_ <;> simp [processToolCall, hex]
  | some uri =>
      cases hlk : lookupStr s.toolResults tc.id with
      | none => refine resInv_of_eq h ?_ ?_ <;> simp [processToolCall, hex, hlk]
      | some content =>
          by_cases hh : c.hash content = ""
          · refine resInv_of_eq h ?_ ?_ <;> simp [processToolCall, hex, hlk, hh]
          · cases hr : getResourceByUri s.graph uri with
            | some r =>
                by_cases hsame : r.currentContentHash = some (c.hash content)
                · cases hv : getResourceVersionByHash s.graph uri (c.hash content) with
                  | some v =>
                      refine resInv_of_eq h ?_ ?_ <;>
                        simp [processToolCall, hex, hlk, if_neg hh, hr, if_pos hsame, hv,
                          TMState.tick, GraphState.addToolUseEdge]
                  | none =>
                      refine resInv_of_eq h ?_ ?_ <;>
                        simp [processToolCall, hex, hlk, if_neg hh, hr, if_pos hsame, hv]
                · have hres : (processToolCall c aid cid tc s).2.graph.resources
                      = s.graph.resources.map (fun r' => if r'.uri = uri then { r' with currentContentHash := some (c.hash content), lastAccessedAt := s.fresh + 1 } else r') := by
                    simp [processToolCall, hex, hlk, if_neg hh, hr, if_neg hsame,
                      TMState.tick, GraphState.addVersion, GraphState.updateResourceHash,
                      GraphState.addVersionOfEdge, GraphState.addToolUseEdge]
                  have hver : (processToolCall c aid cid tc s).2.graph.versions
                      = s.graph.versions ++ [⟨s.fresh, c.hash content, uri, cid, s.fresh, s.fresh⟩] := by
                    simp [processToolCall, hex, hlk, if_neg hh, hr, if_neg hsame,
                      TMState.tick, GraphState.addVersion, GraphState.updateResourceHash,
                      GraphState.addVersionOfEdge, GraphState.addToolUseEdge]
                  obtain ⟨hrmem, hruri⟩ := getResourceByUri_some hr
                  exact resInv_changed h uri (c.hash content)
                    ⟨s.fresh, c.hash content, uri, cid, s.fresh, s.fresh⟩ (s.fresh + 1)
                    rfl rfl ⟨r, hrmem, hruri⟩ hres hver
            | none =>
                have hres : (processToolCall c aid cid tc s).2.graph.resources
                    = s.graph.resources ++ [⟨s.fresh, uri, some (c.hash content), cid, s.fresh, s.fresh⟩] := by
                  simp [processToolCall, hex, hlk, if_neg hh, hr, createResourceMerge,
                    TMState.tick, GraphState.addResource, GraphState.addVersion,
                    GraphState.addVersionOfEdge, GraphState.addToolUseEdge]
                have hver : (processToolCall c aid cid tc s).2.graph.versions
                    = s.graph.versions
                      ++ [⟨s.fresh + 1, c.hash content, uri, cid, s.fresh + 1, s.fresh + 1⟩] := by
                  simp [processToolCall, hex, hlk, if_neg hh, hr, createResourceMerge,
                    TMState.tick, GraphState.addResource, GraphState.addVersion,
                    GraphState.addVersionOfEdge, GraphState.addToolUseEdge]
                exact resInv_new h uri (c.hash content)
                  ⟨s.fresh, uri, some (c.hash content), cid, s.fresh, s.fresh⟩
                  ⟨s.fresh + 1, c.hash content, uri, cid, s.fresh + 1, s.fresh + 1⟩
                  rfl rfl rfl rfl (getResourceByUri_none hr) hres hver

/-- `_process_tool_call` preserves the combined invariant. -/
theorem processToolCall_inv (c : Ctx) (aid : Nat) (cid : String) (tc : ToolCallM)
    {s : TMState} (h : Inv s) : Inv (processToolCall c aid cid tc s).2 := by
  obtain ⟨hres, hmsg⟩ := h
  obtain ⟨h1, h2, h3, _h4, _h5, h6⟩ := processToolCall_frame c aid cid tc s
  exact ⟨processToolCall_resInv c aid cid tc hres, msgInv_frame hmsg h1 h2 h3 h6⟩

/-- The per-message tool-call fold preserves the invariant. -/
theorem foldToolCalls_inv (c : Ctx) (aid : Nat) (cid : String) :
    ∀ (tcs : List ToolCallM) (st : List (String × Nat) × TMState),
      Inv st.2 → Inv (foldToolCalls c aid cid tcs st).2
  | [], st, h => h
  | tc :: tcs, st, h => by
      have hstep := processToolCall_inv c aid cid tc h
      exact foldToolCalls_inv c aid cid tcs
        (dictUpdate st.1 (processToolCall c aid cid tc st.2).1,
          (processToolCall c aid cid tc st.2).2) hstep

/-- Extending the graph with one fresh message node (and at most one edge
into it from an existing node) preserves `MsgInv`. -/
theorem msgInv_extend {s s' : TMState} (h : MsgInv s)
    (nnew : MsgNode) (E : List MessageEdgeM)
    (hnodes : ∀ n, n ∈ msgNodes s'.graph ↔ n ∈ msgNodes s.graph ∨ n = nnew)
    (hid : MsgNode.nid nnew = s.fresh) (hcr : MsgNode.created nnew = s.fresh)
    (hedges : s'.graph.messageEdges = s.graph.messageEdges ++ E)
    (hfresh : s.fresh < s'.fresh)
    (hE : ∀ e ∈ E, ∃ ns ∈ msgNodes s.graph,
        MsgNode.nid ns = e.sourceId ∧ e.targetId = MsgNode.nid nnew) : MsgInv s' := by
  obtain ⟨h1, h2, h3⟩ := h
  refine ⟨?_, ?_, ?_⟩
  · intro n hn
    rcases (hnodes n).mp hn with hold | rfl
    · have := h1 n hold
      omega
    · rw [hid, hcr]
      exact ⟨hfresh, hfresh⟩
  · intro m hm n hn heq
    rcases (hnodes m).mp hm with hmold | rfl
    · rcases (hnodes n).mp hn with hnold | rfl
      · exact h2 m hmold n hnold heq
      · exfalso
        have := (h1 m hmold).1
        rw [heq, hid] at this
        omega
    · rcases (hnodes n).mp hn with hnold | rfl
      · exfalso
        have := (h1 n hnold).1
        rw [← heq, hid] at this
        omega
      · rfl
  · intro e he
    rw [hedges] at he
    rcases List.mem_append.mp he with hold | hnew
    · obtain ⟨ns, hns, nt, hnt, ha, hb, hc⟩ := h3 e hold
      exact ⟨ns, (hnodes ns).mpr (Or.inl hns), nt, (hnodes nt).mpr (Or.inl hnt), ha, hb, hc⟩
    · obtain ⟨ns, hns, ha, hb⟩ := hE e hnew
      refine ⟨ns, (hnodes ns).mpr (Or.inl hns), nnew, (hnodes nnew).mpr (Or.inr rfl), ha, hb.symm, ?_⟩
      have := (h1 ns hns).2
      rw [hcr]
      omega

/-- `add_message` preserves the invariant. -/
theorem addMessage_inv (c : Ctx) (cid : String) (m : MessageM) {s : TMState}
    (h : Inv s) : Inv (addMessage c cid m s).2 := by
  obtain ⟨hres, hmsg⟩ := h
  rcases hm : m.role with _ | _ | _ | _
  · -- user
    obtain ⟨u, E, h1, h2, h3, h4, h5, h6, h7, h8, h9, h10, h11, h12, h13, h14, h15, h16⟩ :=
      addUserMessage_desc c cid m.content s
    have hst : (addMessage c cid m s).2 = (addUserMessage c cid m.content s).2 := by
      simp [addMessage, hm]
    rw [hst]
    constructor
    · exact resInv_of_eq hres h10 h11
    · refine msgInv_extend hmsg (.user u) E ?_ (by simpa using h2) (by simpa using h3) h9 h15 ?_
      · intro n
        unfold msgNodes
        rw [h7, h8]
        simp only [List.mem_append, List.mem_map, List.mem_singleton]
        aesop
      · intro e he
        rcases h16 with rfl | ⟨a, eid, hla, rfl⟩
        · cases he
        · rw [List.mem_singleton.mp he]
          obtain ⟨hamem, _⟩ := getLastAgentText_mem hla
          refine ⟨.agent a, ?_, rfl, rfl⟩
          unfold msgNodes
          exact List.mem_append.mpr (Or.inr (List.mem_map.mpr ⟨a, hamem, rfl⟩))
  · -- assistant
    obtain ⟨a, E, h1, h2, h3, h4, h5, h6, h7, h8, h9, h10, h11, h12, h13, h14, h15, h16, h17, h18⟩ :=
      addAgentCore_desc cid m s
    have hst : (addMessage c cid m s).2
        = (foldToolCalls c (addAgentCore cid m s).1.id cid m.toolCalls
            ([], (addAgentCore cid m s).2)).2 := by
      simp [addMessage, hm, addAssistantMessage]
    rw [hst]
    refine foldToolCalls_inv c _ cid m.toolCalls ([], (addAgentCore cid m s).2) ?_
    constructor
    · exact resInv_of_eq hres h11 h12
    · refine msgInv_extend hmsg (.agent a) E ?_ (by simpa using h2) (by simpa using h3) h10 h17 ?_
      · intro n
        unfold msgNodes
        rw [h8, h9]
        simp only [List.mem_append, List.mem_map, List.mem_singleton]
        aesop
      · intro e he
        rcases h18 with rfl | ⟨n, eid, hln, rfl⟩
        · cases he
        · rw [List.mem_singleton.mp he]
          exact ⟨n, getLastNodeInTurn_mem hln, rfl, rfl⟩
  · -- tool
    cases htc : m.toolCallId with
    | some tcid =>
        have hst : (addMessage c cid m s).2 = { s with toolResults := scratchPut s.toolResults tcid m.content } := by
          simp [addMessage, hm, htc]
        rw [hst]
        exact ⟨resInv_of_eq hres rfl rfl, msgInv_frame hmsg rfl rfl rfl (le_refl _)⟩
    | none =>
        have hst : (addMessage c cid m s).2 = s := by
          simp [addMessage, hm, htc]
        rw [hst]
        exact ⟨hres, hmsg⟩
  · -- system
    have hst : (addMessage c cid m s).2 = s := by
      simp [addMessage, hm]
    rw [hst]
    exact ⟨hres, hmsg⟩

theorem inv_init : Inv TMState.init := by
  refine ⟨⟨?_, ?_⟩, ?_, ?_, ?_⟩ <;> simp [TMState.init, GraphState.empty, msgNodes]

/-- Every reachable session state satisfies the invariant. -/
theorem inv_of_reachable {c : Ctx} {s : TMState} (h : Reachable c s) : Inv s := by
  induction h with
  | init => exact inv_init
  | step cid m hr ih => exact addMessage_inv c cid m ih

/-! ## C2 / C3: resource versioning -/

theorem getResourceByUri_congr {g g' : GraphState} (h : g'.resources = g.resources)
    (uri : String) : getResourceByUri g' uri = getResourceByUri g uri := by
  unfold getResourceByUri
  rw [h]

theorem getResourceVersionByHash_congr {g g' : GraphState} (h : g'.versions = g.versions)
    (uri hsh : String) :
    getResourceVersionByHash g' uri hsh = getResourceVersionByHash g uri hsh := by
  unfold getResourceVersionByHash
  rw [h]

/-- In a state satisfying the resource invariants, the current hash of an
existing Resource always has a matching stored version. -/
theorem version_lookup_of_resInv {s : TMState} (hinv : ResInv s) {uri : String} {r : ResourceN}
    (hr : getResourceByUri s.graph uri = some r) {hsh : String}
    (hcur : r.currentContentHash = some hsh) :
    ∃ v, getResourceVersionByHash s.graph uri hsh = some v
      ∧ v.uri = uri ∧ v.contentHash = hsh := by
  obtain ⟨hrmem, hruri⟩ := getResourceByUri_some hr
  obtain ⟨v, hv1, hv2⟩ := hinv.1 r hrmem
  rw [hcur] at hv2
  have hvh : v.contentHash = hsh := by
    injection hv2 with hinj
    exact hinj.symm
  have hvmem := getLast?_mem hv1
  have hvf := List.mem_filter.mp hvmem
  have hvuri : v.uri = uri := by
    have h2 := hvf.2
    simp only [decide_eq_true_eq] at h2
    rw [h2, hruri]
  cases hfind : getResourceVersionByHash s.graph uri hsh with
  | some w =>
      obtain ⟨_, hwu, hwh⟩ := getResourceVersionByHash_some hfind
      exact ⟨w, rfl, hwu, hwh⟩
  | none =>
      exfalso
      unfold getResourceVersionByHash at hfind
      have := List.find?_eq_none.mp hfind v hvf.1
      simp [hvuri, hvh] at this

/-- **C2** (confirmed).  Ingesting a tool call whose result hashes to the
Resource's `current_content_hash` creates exactly one new ToolUseEdge,
targeted at the existing ResourceVersion for `(uri, hash)`, and no new
Resource, ResourceVersion or VersionOfEdge; consequently reading the same
file twice with identical content (spec scenario) leaves exactly two
ToolUseEdges, one ResourceVersion and one Resource in the store. -/
theorem claim_c2_same_hash_dedup :
    (∀ (c : Ctx) (s : TMState), Reachable c s →
      ∀ (cid txt : String) (tc : ToolCallM) (uri content : String) (r : ResourceN),
        c.extract tc.name tc.args = some uri →
        lookupStr s.toolResults tc.id = some content →
        c.hash content ≠ "" →
        getResourceByUri s.graph uri = some r →
        r.currentContentHash = some (c.hash content) →
        (addMessage c cid ⟨.assistant, txt, [tc], none⟩ s).2.graph.resources = s.graph.resources
        ∧ (addMessage c cid ⟨.assistant, txt, [tc], none⟩ s).2.graph.versions = s.graph.versions
        ∧ (addMessage c cid ⟨.assistant, txt, [tc], none⟩ s).2.graph.versionOfEdges
            = s.graph.versionOfEdges
        ∧ ∃ (v : ResourceVersionN) (e : ToolUseEdgeM),
            getResourceVersionByHash s.graph uri (c.hash content) = some v
            ∧ (addMessage c cid ⟨.assistant, txt, [tc], none⟩ s).2.graph.toolUseEdges
                = s.graph.toolUseEdges ++ [e]
            ∧ e.targetId = v.id
            ∧ e.sourceId = (addAgentCore cid ⟨.assistant, txt, [tc], none⟩ s).1.id)
    ∧ (twoReadsState.graph.toolUseEdges.length = 2
        ∧ twoReadsState.graph.versions.length = 1
        ∧ twoReadsState.graph.resources.length = 1) := by
  constructor
  · intro c s hre cid txt tc uri content r hex hlk hh hr hcur
    obtain ⟨a, E, h1, h2, h3, h4, h5, h6, h7, h8, h9, h10, h11, h12, h13, h14, h15, h16, h17, h18⟩ :=
      addAgentCore_desc cid ⟨.assistant, txt, [tc], none⟩ s
    obtain ⟨v, hv, hvuri, hvh⟩ :=
      version_lookup_of_resInv (inv_of_reachable hre).1 hr hcur
    have hlk' : lookupStr (addAgentCore cid ⟨.assistant, txt, [tc], none⟩ s).2.toolResults tc.id
        = some content := by rw [h15]; exact hlk
    have hr' : getResourceByUri (addAgentCore cid ⟨.assistant, txt, [tc], none⟩ s).2.graph uri
        = some r := by rw [getResourceByUri_congr h11]; exact hr
    have hv' : getResourceVersionByHash (addAgentCore cid ⟨.assistant, txt, [tc], none⟩ s).2.graph
        uri (c.hash content) = some v := by rw [getResourceVersionByHash_congr h12]; exact hv
    have hs' : (addMessage c cid ⟨.assistant, txt, [tc], none⟩ s).2
        = (processToolCall c (addAgentCore cid ⟨.assistant, txt, [tc], none⟩ s).1.id cid tc
            (addAgentCore cid ⟨.assistant, txt, [tc], none⟩ s).2).2 := by
      simp [addMessage, addAssistantMessage, foldToolCalls]
    refine ⟨?_, ?_, ?_, v,
      ⟨(addAgentCore cid ⟨.assistant, txt, [tc], none⟩ s).2.fresh,
        (addAgentCore cid ⟨.assistant, txt, [tc], none⟩ s).1.id, v.id,
        upperUnder tc.name, cid, tc.args,
        (addAgentCore cid ⟨.assistant, txt, [tc], none⟩ s).2.fresh⟩, hv, ?_, rfl, rfl⟩
    · rw [hs']
      simp [processToolCall, hex, hlk', hh, hr', hcur, hv', TMState.tick,
        GraphState.addToolUseEdge]
      exact h11
    · rw [hs']
      simp [processToolCall, hex, hlk', hh, hr', hcur, hv', TMState.tick,
        GraphState.addToolUseEdge]
      exact h12
    · rw [hs']
      simp [processToolCall, hex, hlk', hh, hr', hcur, hv', TMState.tick,
        GraphState.addToolUseEdge]
      exact h14
    · rw [hs']
      simp [processToolCall, hex, hlk', hh, hr', hcur, hv', TMState.tick,
        GraphState.addToolUseEdge]
      exact h13
  · refine ⟨?_, ?_, ?_⟩ <;> decide

/-- **C3** (confirmed).  Hash monotonicity: in every reachable state, each
URI holding versions has its Resource's `current_content_hash` equal to the
content hash of the most recently created ResourceVersion; and ingesting a
tool result whose hash differs from the current one appends exactly one new
ResourceVersion carrying the new hash, rewrites the hash of every Resource
row for the URI, and appends one VersionOfEdge (version → resource) and one
ToolUseEdge (agent → version). -/
theorem claim_c3_hash_monotonicity :
    (∀ (c : Ctx) (s : TMState), Reachable c s →
      ∀ (uri : String) (v : ResourceVersionN),
        lastVersionFor s.graph uri = some v →
        ∃ r, getResourceByUri s.graph uri = some r
          ∧ r.currentContentHash = some v.contentHash)
    ∧ (∀ (c : Ctx) (s : TMState) (cid txt : String) (tc : ToolCallM)
        (uri content : String) (r : ResourceN),
        c.extract tc.name tc.args = some uri →
        lookupStr s.toolResults tc.id = some content →
        c.hash content ≠ "" →
        getResourceByUri s.graph uri = some r →
        r.currentContentHash ≠ some (c.hash content) →
        ∃ (v : ResourceVersionN) (vo : VersionOfEdgeM) (e : ToolUseEdgeM),
          (addMessage c cid ⟨.assistant, txt, [tc], none⟩ s).2.graph.versions
              = s.graph.versions ++ [v]
          ∧ v.uri = uri
          ∧ v.contentHash = c.hash content
          ∧ (∀ r' ∈ (addMessage c cid ⟨.assistant, txt, [tc], none⟩ s).2.graph.resources,
              r'.uri = uri → r'.currentContentHash = some (c.hash content))
          ∧ (addMessage c cid ⟨.assistant, txt, [tc], none⟩ s).2.graph.versionOfEdges
              = s.graph.versionOfEdges ++ [vo]
          ∧ vo.versionId = v.id ∧ vo.resourceId = r.id
          ∧ (addMessage c cid ⟨.assistant, txt, [tc], none⟩ s).2.graph.toolUseEdges
              = s.graph.toolUseEdges ++ [e]
          ∧ e.sourceId = (addAgentCore cid ⟨.assistant, txt, [tc], none⟩ s).1.id
          ∧ e.targetId = v.id ∧ e.toolName = upperUnder tc.name) := by
  constructor
  · intro c s hre uri v hlast
    have hinv := (inv_of_reachable hre).1
    have hvmem' : v ∈ s.graph.versions.filter (fun w => w.uri = uri) := by
      unfold lastVersionFor at hlast
      exact getLast?_mem hlast
    have hvf := List.mem_filter.mp hvmem'
    have hvuri : v.uri = uri := by
      have h2 := hvf.2
      simp only [decide_eq_true_eq] at h2
      exact h2
    obtain ⟨r0, hr0mem, hr0uri⟩ := hinv.2 v hvf.1
    cases hfind : getResourceByUri s.graph uri with
    | none =>
        exfalso
        unfold getResourceByUri at hfind
        have := List.find?_eq_none.mp hfind r0 hr0mem
        simp [hr0uri, hvuri] at this
    | some r =>
        obtain ⟨hrmem, hruri⟩ := getResourceByUri_some hfind
        obtain ⟨w, hw1, hw2⟩ := hinv.1 r hrmem
        rw [hruri, hlast] at hw1
        refine ⟨r, rfl, ?_⟩
        rw [hw2]
        injection hw1 with hvw
        rw [hvw]
  · intro c s cid txt tc uri content r hex hlk hh hr hcur
    obtain ⟨a, E, h1, h2, h3, h4, h5, h6, h7, h8, h9, h10, h11, h12, h13, h14, h15, h16, h17, h18⟩ :=
      addAgentCore_desc cid ⟨.assistant, txt, [tc], none⟩ s
    have hlk' : lookupStr (addAgentCore cid ⟨.assistant, txt, [tc], none⟩ s).2.toolResults tc.id
        = some content := by rw [h15]; exact hlk
    have hr' : getResourceByUri (addAgentCore cid ⟨.assistant, txt, [tc], none⟩ s).2.graph uri
        = some r := by rw [getResourceByUri_congr h11]; exact hr
    have hs' : (addMessage c cid ⟨.assistant, txt, [tc], none⟩ s).2
        = (processToolCall c (addAgentCore cid ⟨.assistant, txt, [tc], none⟩ s).1.id cid tc
            (addAgentCore cid ⟨.assistant, txt, [tc], none⟩ s).2).2 := by
      simp [addMessage, addAssistantMessage, foldToolCalls]
    refine ⟨⟨(addAgentCore cid ⟨.assistant, txt, [tc], none⟩ s).2.fresh, c.hash content, uri, cid,
        (addAgentCore cid ⟨.assistant, txt, [tc], none⟩ s).2.fresh,
        (addAgentCore cid ⟨.assistant, txt, [tc], none⟩ s).2.fresh⟩,
      ⟨(addAgentCore cid ⟨.assistant, txt, [tc], none⟩ s).2.fresh + 1 + 1,
        (addAgentCore cid ⟨.assistant, txt, [tc], none⟩ s).2.fresh, r.id,
        (addAgentCore cid ⟨.assistant, txt, [tc], none⟩ s).2.fresh + 1 + 1⟩,
      ⟨(addAgentCore cid ⟨.assistant, txt, [tc], none⟩ s).2.fresh + 1 + 1 + 1,
        (addAgentCore cid ⟨.assistant, txt, [tc], none⟩ s).1.id,
        (addAgentCore cid ⟨.assistant, txt, [tc], none⟩ s).2.fresh,
        upperUnder tc.name, cid, tc.args,
        (addAgentCore cid ⟨.assistant, txt, [tc], none⟩ s).2.fresh + 1 + 1 + 1⟩,
      ?_, rfl, rfl, ?_, ?_, rfl, rfl, ?_, rfl, rfl, rfl⟩
    · rw [hs']
      simp [processToolCall, hex, hlk', if_neg hh, hr', if_neg hcur, TMState.tick,
        GraphState.addVersion, GraphState.updateResourceHash, GraphState.addVersionOfEdge,
        GraphState.addToolUseEdge]
      exact h12
    · intro r' hr'mem hr'uri
      rw [hs'] at hr'mem
      simp only [processToolCall, hex, hlk', if_neg hh, hr', if_neg hcur, TMState.tick,
        GraphState.addVersion, GraphState.updateResourceHash, GraphState.addVersionOfEdge,
        GraphState.addToolUseEdge, List.mem_map] at hr'mem
      obtain ⟨r0, hr0mem, hr0eq⟩ := hr'mem
      by_cases huri : r0.uri = uri
      · rw [if_pos huri] at hr0eq
        rw [← hr0eq]
      · rw [if_neg huri] at hr0eq
        rw [← hr0eq] at hr'uri
        exact absurd hr'uri huri
    · rw [hs']
      simp [processToolCall, hex, hlk', if_neg hh, hr', if_neg hcur, TMState.tick,
        GraphState.addVersion, GraphState.updateResourceHash, GraphState.addVersionOfEdge,
        GraphState.addToolUseEdge]
      exact h14
    · rw [hs']
      simp [processToolCall, hex, hlk', if_neg hh, hr', if_neg hcur, TMState.tick,
        GraphState.addVersion, GraphState.updateResourceHash, GraphState.addVersionOfEdge,
        GraphState.addToolUseEdge]
      exact h13

theorem claim_c3_witness :
    (∃ r, getResourceByUri wS3.graph "file:///tmp/a" = some r
        ∧ r.currentContentHash
            = some (ResourceVersionN.mk 2 "sha-AAA" "file:///tmp/a" "cA" 2 2).contentHash)
    ∧ (addMessage exampleCtx "cA"
        ⟨.assistant, "again", [⟨"c2", "read_file", [("path", .jstr "/tmp/a")]⟩], none⟩
        wS3b).2.graph.versions.length = wS3b.graph.versions.length + 1 := by
  constructor
  · exact claim_c3_hash_monotonicity.1 exampleCtx wS3
      (Reachable.step "cA" wMsgTool2 (Reachable.step "cA" wMsgAsst1
        (Reachable.step "cA" wMsgTool1 Reachable.init)))
      "file:///tmp/a" ⟨2, "sha-AAA", "file:///tmp/a", "cA", 2, 2⟩ rfl
  · obtain ⟨v, vo, e, h1, -⟩ := claim_c3_hash_monotonicity.2 exampleCtx wS3b "cA" "again"
      ⟨"c2", "read_file", [("path", .jstr "/tmp/a")]⟩ "file:///tmp/a" "BBB"
      ⟨1, "file:///tmp/a", some "sha-AAA", "cA", 1, 1⟩
      rfl rfl (by decide) rfl (by decide)
    rw [h1]
    simp

/-! ## C5: missing retrieval inputs -/

/-- **C5** (confirmed).  When the requested node id matches no stored
UserText, `get_context` returns a result with no `user_text`, no
`agent_text` and an empty `tool_uses` list; and when the URI matches no
stored Resource, `get_conversations_for_resource` returns the empty list.
Both calls succeed (they are total functions of the state). -/
theorem claim_c5_missing_inputs :
    (∀ (s : TMState) (nid : Nat),
        (∀ u ∈ s.graph.userTexts, u.id ≠ nid) →
        (getContextH nid s).1.userText = none
        ∧ (getContextH nid s).1.agentText = none
        ∧ (getContextH nid s).1.toolUses = [])
    ∧ (∀ (s : TMState) (uri : String) (cfg : RetrievalCfg),
        (∀ r ∈ s.graph.resources, r.uri ≠ uri) →
        (getConversationsH uri cfg s).1 = []) := by
  constructor
  · intro s nid h
    have hf : s.graph.userTexts.find? (fun u => u.id = nid) = none :=
      List.find?_eq_none.mpr (fun u hu => by simp [h u hu])
    refine ⟨?_, ?_, ?_⟩ <;> simp [getContextH, getNodeContext, hf]
  · intro s uri cfg h
    have hf : s.graph.resources.filter (fun r => r.uri = uri) = [] := by
      rw [List.filter_eq_nil]
      intro r hr
      simp [h r hr]
    have hrows : resourceConvRows s.graph uri = [] := by
      unfold resourceConvRows
      rw [hf]
      rfl
    cases hexc : cfg.excludeConversationId with
    | none =>
        simp [getConversationsH, getResourceConversations, hexc, hrows,
          dedupByKey, dedupByKeyAux, sortB]
    | some cex =>
        simp [getConversationsH, getResourceConversations, hexc, hrows,
          dedupByKey, dedupByKeyAux, sortB]

theorem claim_c5_witness :
    ((getContextH 99 wS3).1.userText = none
      ∧ (getContextH 99 wS3).1.agentText = none
      ∧ (getContextH 99 wS3).1.toolUses = [])
    ∧ (getConversationsH "file:///nope" {} wS3).1 = [] :=
  ⟨claim_c5_missing_inputs.1 wS3 99 (by decide),
    claim_c5_missing_inputs.2 wS3 "file:///nope" {} (by decide)⟩

/-! ## C9: the created-ids map of `add_message` -/

theorem key_agent_ne_res (u : String) : "agent_text" ≠ "resource_" ++ u := by
  intro h
  have hd := congrArg String.data h
  rw [strData_append] at hd
  have hd' : (['a', 'g', 'e', 'n', 't', '_', 't', 'e', 'x', 't'] : List Char)
      = (['r', 'e', 's', 'o', 'u', 'r', 'c', 'e', '_'] : List Char) ++ u.data := hd
  simp only [List.cons_append, List.nil_append, List.cons.injEq] at hd'
  exact absurd hd'.1 (by decide)

theorem key_agent_ne_resver (u : String) : "agent_text" ≠ "resource_version_" ++ u := by
  intro h
  have hl := congrArg (fun t => t.data.length) h
  simp only [strData_append, List.length_append] at hl
  have h10 : "agent_text".data.length = 10 := rfl
  have h17 : "resource_version_".data.length = 17 := rfl
  rw [h10, h17] at hl
  omega

theorem key_res_ne_resver (u : String) : ("resource_" ++ u) ≠ ("resource_version_" ++ u) := by
  intro h
  have hl := congrArg (fun t => t.data.length) h
  simp only [strData_append, List.length_append] at hl
  have h9 : "resource_".data.length = 9 := rfl
  have h17 : "resource_version_".data.length = 17 := rfl
  rw [h9, h17] at hl
  omega

/-- **C9** (counterexample to the frozen claim).  In a new-resource
ingestion the VersionOfEdge (id 3) and the ToolUseEdge (id 4) are created,
yet neither id appears among the values of the map `add_message` returns:
the map holds only the agent_text, resource and resource_version ids. -/
theorem claim_c9_counterexample :
    (addMessage exampleCtx "cA" wMsgAsst1
        (addMessage exampleCtx "cA" wMsgTool1 TMState.init).2).2.graph.versionOfEdges.map
        (fun e => e.id) = [3]
    ∧ (addMessage exampleCtx "cA" wMsgAsst1
        (addMessage exampleCtx "cA" wMsgTool1 TMState.init).2).2.graph.toolUseEdges.map
        (fun e => e.id) = [4]
    ∧ (addMessage exampleCtx "cA" wMsgAsst1
        (addMessage exampleCtx "cA" wMsgTool1 TMState.init).2).1.map Prod.snd = [0, 1, 2]
    ∧ (∀ p ∈ (addMessage exampleCtx "cA" wMsgAsst1
        (addMessage exampleCtx "cA" wMsgTool1 TMState.init).2).1, p.2 ≠ 3 ∧ p.2 ≠ 4) := by
  refine ⟨?_, ?_, ?_, ?_⟩ <;> decide

/-- **C9** (amended).  When an assistant message's tool call targets a URI
with no existing Resource, the map returned by `add_message` holds exactly
three entries — the agent_text id, the new Resource id under
`resource_{uri}` and the new ResourceVersion id under
`resource_version_{uri}`; the ids of the VersionOfEdge and ToolUseEdge
creations are not emitted. -/
theorem claim_c9_created_map_amended :
    ∀ (c : Ctx) (s : TMState) (cid txt : String) (tc : ToolCallM) (uri content : String),
      c.extract tc.name tc.args = some uri →
      lookupStr s.toolResults tc.id = some content →
      c.hash content ≠ "" →
      getResourceByUri s.graph uri = none →
      (addMessage c cid ⟨.assistant, txt, [tc], none⟩ s).1
        = [("agent_text", (addAgentCore cid ⟨.assistant, txt, [tc], none⟩ s).1.id),
           ("resource_" ++ uri, (addAgentCore cid ⟨.assistant, txt, [tc], none⟩ s).2.fresh),
           ("resource_version_" ++ uri,
             (addAgentCore cid ⟨.assistant, txt, [tc], none⟩ s).2.fresh + 1)]
      ∧ (addMessage c cid ⟨.assistant, txt, [tc], none⟩ s).2.graph.resources
          = s.graph.resources
            ++ [⟨(addAgentCore cid ⟨.assistant, txt, [tc], none⟩ s).2.fresh, uri,
                some (c.hash content), cid,
                (addAgentCore cid ⟨.assistant, txt, [tc], none⟩ s).2.fresh,
                (addAgentCore cid ⟨.assistant, txt, [tc], none⟩ s).2.fresh⟩]
      ∧ (addMessage c cid ⟨.assistant, txt, [tc], none⟩ s).2.graph.versions
          = s.graph.versions
            ++ [⟨(addAgentCore cid ⟨.assistant, txt, [tc], none⟩ s).2.fresh + 1,
                c.hash content, uri, cid,
                (addAgentCore cid ⟨.assistant, txt, [tc], none⟩ s).2.fresh + 1,
                (addAgentCore cid ⟨.assistant, txt, [tc], none⟩ s).2.fresh + 1⟩] := by
  intro c s cid txt tc uri content hex hlk hh hr
  obtain ⟨a, E, h1, h2, h3, h4, h5, h6, h7, h8, h9, h10, h11, h12, h13, h14, h15, h16, h17, h18⟩ :=
    addAgentCore_desc cid ⟨.assistant, txt, [tc], none⟩ s
  have hlk' : lookupStr (addAgentCore cid ⟨.assistant, txt, [tc], none⟩ s).2.toolResults tc.id
      = some content := by rw [h15]; exact hlk
  have hr' : getResourceByUri (addAgentCore cid ⟨.assistant, txt, [tc], none⟩ s).2.graph uri
      = none := by rw [getResourceByUri_congr h11]; exact hr
  have hs1 : (addMessage c cid ⟨.assistant, txt, [tc], none⟩ s).1
      = dictUpdate [("agent_text", (addAgentCore cid ⟨.assistant, txt, [tc], none⟩ s).1.id)]
          (dictUpdate []
            (processToolCall c (addAgentCore cid ⟨.assistant, txt, [tc], none⟩ s).1.id cid tc
              (addAgentCore cid ⟨.assistant, txt, [tc], none⟩ s).2).1) := by
    simp [addMessage, addAssistantMessage, foldToolCalls]
  have hs2 : (addMessage c cid ⟨.assistant, txt, [tc], none⟩ s).2
      = (processToolCall c (addAgentCore cid ⟨.assistant, txt, [tc], none⟩ s).1.id cid tc
          (addAgentCore cid ⟨.assistant, txt, [tc], none⟩ s).2).2 := by
    simp [addMessage, addAssistantMessage, foldToolCalls]
  have hP1 : (processToolCall c (addAgentCore cid ⟨.assistant, txt, [tc], none⟩ s).1.id cid tc
      (addAgentCore cid ⟨.assistant, txt, [tc], none⟩ s).2).1
      = [("resource_" ++ uri, (addAgentCore cid ⟨.assistant, txt, [tc], none⟩ s).2.fresh),
         ("resource_version_" ++ uri,
           (addAgentCore cid ⟨.assistant, txt, [tc], none⟩ s).2.fresh + 1)] := by
    simp [processToolCall, hex, hlk', if_neg hh, hr', createResourceMerge, TMState.tick,
      GraphState.addResource, GraphState.addVersion, GraphState.addVersionOfEdge,
      GraphState.addToolUseEdge]
  refine ⟨?_, ?_, ?_⟩
  · rw [hs1, hP1]
    simp [dictUpdate, dictInsert, key_agent_ne_res uri, key_agent_ne_resver uri,
      key_res_ne_resver uri]
  · rw [hs2]
    simp [processToolCall, hex, hlk', if_neg hh, hr', createResourceMerge, TMState.tick,
      GraphState.addResource, GraphState.addVersion, GraphState.addVersionOfEdge,
      GraphState.addToolUseEdge]
    exact h11
  · rw [hs2]
    simp [processToolCall, hex, hlk', if_neg hh, hr', createResourceMerge, TMState.tick,
      GraphState.addResource, GraphState.addVersion, GraphState.addVersionOfEdge,
      GraphState.addToolUseEdge]
    exact h12

theorem claim_c9_witness :
    (addMessage exampleCtx "cA" wMsgAsst1
        (addMessage exampleCtx "cA" wMsgTool1 TMState.init).2).1
      = [("agent_text", 0), ("resource_" ++ "file:///tmp/a", 1),
         ("resource_version_" ++ "file:///tmp/a", 2)] :=
  (claim_c9_created_map_amended exampleCtx
    (addMessage exampleCtx "cA" wMsgTool1 TMState.init).2 "cA" "reading"
    ⟨"c1", "read_file", [("path", .jstr "/tmp/a")]⟩ "file:///tmp/a" "AAA"
    rfl rfl (by decide) rfl).1

/-! ## C8: `last_accessed` touching across the retrieval paths -/

theorem touchFold_graph (ids : List Nat) (s : TMState) :
    (ids.foldl (fun s i =>
        let (tv, s') := s.tick
        { s' with vrows := vectorTouch s'.vrows i tv }) s).graph = s.graph := by
  induction ids generalizing s with
  | nil => rfl
  | cons i ids ih =>
      rw [List.foldl_cons, ih]
      rfl

theorem touchFold_untouched (ids : List Nat) (s : TMState) (r' : VRow)
    (hmem : r' ∈ (ids.foldl (fun s i =>
        let (tv, s') := s.tick
        { s' with vrows := vectorTouch s'.vrows i tv }) s).vrows)
    (hid : r'.nodeId ∉ ids) : r' ∈ s.vrows := by
  induction ids generalizing s with
  | nil => exact hmem
  | cons i ids ih =>
      rw [List.foldl_cons] at hmem
      have hid' : r'.nodeId ∉ ids := fun h => hid (List.mem_cons_of_mem _ h)
      have h1 := ih _ hmem hid'
      simp only [TMState.tick, vectorTouch, List.mem_map] at h1
      obtain ⟨r0, hr0, heq⟩ := h1
      by_cases hc : r0.nodeId = i
      · rw [if_pos hc] at heq
        exfalso
        apply hid
        rw [← heq]
        show r0.nodeId ∈ i :: ids
        rw [hc]
        exact List.mem_cons_self _ _
      · rw [if_neg hc] at heq
        rw [← heq]
        exact hr0

theorem touchFold_le (ids : List Nat) (s : TMState) (r' : VRow)
    (hmem : r' ∈ (ids.foldl (fun s i =>
        let (tv, s') := s.tick
        { s' with vrows := vectorTouch s'.vrows i tv }) s).vrows)
    (hid : r'.nodeId ∈ ids) : s.fresh ≤ r'.lastAccessed := by
  induction ids generalizing s with
  | nil => cases hid
  | cons i ids ih =>
      rw [List.foldl_cons] at hmem
      by_cases hin : r'.nodeId ∈ ids
      · have hle := ih _ hmem hin
        simp only [TMState.tick] at hle
        omega
      · have hi : r'.nodeId = i := by
          rcases List.mem_cons.mp hid with h | h
          · exact h
          · exact absurd h hin
        have h1 := touchFold_untouched ids _ r' hmem hin
        simp only [TMState.tick, vectorTouch, List.mem_map] at h1
        obtain ⟨r0, hr0, heq⟩ := h1
        by_cases hc : r0.nodeId = i
        · rw [if_pos hc] at heq
          rw [← heq]
        · rw [if_neg hc] at heq
          rw [← heq] at hi
          exact absurd hi hc

/-- Effect description of `searchH`: empty results leave the state
untouched; nonempty results flow through the graph-store touch and the
per-id vector-store touch fold. -/
theorem searchH_desc (c : Ctx) (dense : List Int → VRow → ℚ) (lex : String → VRow → ℚ)
    (query : String) (cfg : RetrievalCfg) (s : TMState) :
    ((searchH c dense lex query cfg s).1 = [] ∧ (searchH c dense lex query cfg s).2 = s)
    ∨ ((searchH c dense lex query cfg s).1 ≠ []
      ∧ (searchH c dense lex query cfg s).2
        = (((searchH c dense lex query cfg s).1.map (fun r => r.nodeId)).foldl
            (fun s i =>
              let (tv, s') := s.tick
              { s' with vrows := vectorTouch s'.vrows i tv })
            (TMState.mk
              (graphTouch s.graph
                ((searchH c dense lex query cfg s).1.map (fun r => r.nodeId)) s.fresh)
              s.vrows s.toolResults (s.fresh + 1)))) := by
  cases hu : cfg.uniqueConversations <;> cases hic : cfg.includeContext <;>
    simp only [searchH, hu, hic, eq_self_iff_true, Bool.false_eq_true, if_true, if_false] <;>
    (split
     next h => exact Or.inl ⟨List.isEmpty_iff.mp h, rfl⟩
     next h => exact Or.inr ⟨fun hnil => h (List.isEmpty_iff.mpr hnil), rfl⟩)

/-- **C8** (counterexample to the frozen claim).  `get_trajectory` returns
node ids (here the step for a stored UserText) yet performs no
`last_accessed_at` update at all: the session state it returns is the
input state, with the returned node's `last_accessed_at` unchanged. -/
theorem claim_c8_counterexample :
    (getTrajectoryH 0 {} wSUser).1.steps.map (fun st => st.nodeId) = [0]
    ∧ (getTrajectoryH 0 {} wSUser).2 = wSUser
    ∧ wSUser.graph.userTexts.map (fun u => (u.id, u.lastAccessedAt)) = [(0, 0)] := by
  refine ⟨?_, rfl, ?_⟩ <;> decide

/-- **C8** (amended).  Of the four retrieval operations only `search`
touches `last_accessed_at`: when `search` returns results it stamps every
returned id in the graph store (`update_last_accessed` on all node tables
with one fresh timestamp) and in the vector store (per-id touches with
strictly later timestamps), while `get_context`,
`get_conversations_for_resource` and `get_trajectory` return the session
state unchanged. -/
theorem claim_c8_touch_amended :
    (∀ (c : Ctx) (dense : List Int → VRow → ℚ) (lex : String → VRow → ℚ)
        (query : String) (cfg : RetrievalCfg) (s : TMState),
        (searchH c dense lex query cfg s).1 ≠ [] →
        (searchH c dense lex query cfg s).2.graph
            = graphTouch s.graph
                ((searchH c dense lex query cfg s).1.map (fun r => r.nodeId)) s.fresh
          ∧ (∀ r' ∈ (searchH c dense lex query cfg s).2.vrows,
              r'.nodeId ∈ (searchH c dense lex query cfg s).1.map (fun r => r.nodeId) →
              s.fresh < r'.lastAccessed))
    ∧ (∀ (nid : Nat) (s : TMState), (getContextH nid s).2 = s)
    ∧ (∀ (uri : String) (cfg : RetrievalCfg) (s : TMState),
        (getConversationsH uri cfg s).2 = s)
    ∧ (∀ (nid : Nat) (cfg : RetrievalCfg) (s : TMState),
        (getTrajectoryH nid cfg s).2 = s) := by
  refine ⟨?_, fun nid s => rfl, fun uri cfg s => rfl, fun nid cfg s => rfl⟩
  intro c dense lex query cfg s h
  rcases searchH_desc c dense lex query cfg s with ⟨h1, _⟩ | ⟨_, h2⟩
  · exact absurd h1 h
  · constructor
    · rw [h2, touchFold_graph]
    · intro r' hmem hid
      rw [h2] at hmem
      have hle := touchFold_le _ _ r' hmem hid
      exact lt_of_lt_of_le (Nat.lt_succ_self s.fresh) hle

theorem claim_c8_witness :
    ((searchH exampleCtx (fun _ r => (r.nodeId : ℚ)) (fun _ r => (r.nodeId : ℚ))
        "hi" {} wSUser).2.graph
      = graphTouch wSUser.graph
          ((searchH exampleCtx (fun _ r => (r.nodeId : ℚ)) (fun _ r => (r.nodeId : ℚ))
              "hi" {} wSUser).1.map (fun r => r.nodeId)) wSUser.fresh)
    ∧ (getTrajectoryH 7 {} wSUser).2 = wSUser := by
  have hne : (searchH exampleCtx (fun _ r => (r.nodeId : ℚ)) (fun _ r => (r.nodeId : ℚ))
      "hi" {} wSUser).1 ≠ [] := by
    intro h
    have hl := congrArg List.length h
    rw [show (searchH exampleCtx (fun _ r => (r.nodeId : ℚ)) (fun _ r => (r.nodeId : ℚ))
        "hi" {} wSUser).1.length = 1 from rfl] at hl
    exact absurd hl (by decide)
  exact ⟨(claim_c8_touch_amended.1 exampleCtx (fun _ r => (r.nodeId : ℚ))
      (fun _ r => (r.nodeId : ℚ)) "hi" {} wSUser hne).1,
    claim_c8_touch_amended.2.2.2 7 {} wSUser⟩

/-! ## C6: `vector_weight` in the LanceDB hybrid search -/

/-- **C6** (refuting the claimed endpoint semantics, as the code stands).
`LanceDBVectorStore.search` accepts `vector_weight` but never feeds it to
the query builder: the returned ranking is the same for every weight, and
on a concrete store the weight-0 ranking differs from the pure-lexical
ranking while the weight-1 ranking differs from the pure dense ranking —
both equal the fixed RRF fusion instead. -/
theorem claim_c6_vector_weight_ignored :
    (∀ (dense : List Int → VRow → ℚ) (lex : String → VRow → ℚ) (rows : List VRow)
        (qv : List Int) (qt : String) (limit : Nat) (exc : Option String) (w w' : ℚ),
        lanceSearch dense lex rows qv qt limit exc w
          = lanceSearch dense lex rows qv qt limit exc w')
    ∧ (lanceSearch denseT lexT rowsT [] "q" 10 none 0).map (fun r => r.nodeId)
        ≠ (pureLexicalRanking lexT rowsT "q" 10).map (fun r => r.nodeId)
    ∧ (lanceSearch denseT lexT rowsT [] "q" 10 none 1).map (fun r => r.nodeId)
        ≠ (pureDenseRanking denseT rowsT [] 10).map (fun r => r.nodeId)
    ∧ (lanceSearch denseT lexT rowsT [] "q" 10 none 0).map (fun r => r.nodeId)
        = (lanceSearch denseT lexT rowsT [] "q" 10 none 1).map (fun r => r.nodeId) := by
  refine ⟨fun dense lex rows qv qt limit exc w w' => rfl, ?_, ?_, rfl⟩
  · norm_num [lanceSearch, pureLexicalRanking, sortB, insertB, rrfScore, rankOf, toVSR,
      rowsT, denseT, lexT, List.findIdx?_cons, List.findIdx?_nil]
  · norm_num [lanceSearch, pureDenseRanking, sortB, insertB, rrfScore, rankOf, toVSR,
      rowsT, denseT, lexT, List.findIdx?_cons, List.findIdx?_nil]

/-! ## C4: trajectory walk -/

theorem parseLoop_true (startId : Nat) (l : List TrajRecord) :
    parseLoop startId true l
      = ((l.filter isMsgLabel).takeWhile (fun r => !isFollowRec startId r)).map stepOf
        ++ ((l.filter isMsgLabel).dropWhile (fun r => !isFollowRec startId r)).head?.toList.map
            stepOf := by
  induction l with
  | nil => rfl
  | cons r rest ih =>
      by_cases hU : r.label = "UserText"
      · by_cases hS : r.id = startId
        · simp [parseLoop, hU, hS, isMsgLabel, isFollowRec, List.filter_cons,
            List.takeWhile_cons, List.dropWhile_cons, ih]
        · simp [parseLoop, hU, hS, isMsgLabel, isFollowRec, List.filter_cons,
            List.takeWhile_cons, List.dropWhile_cons]
      · by_cases hA : r.label = "AgentText"
        · simp [parseLoop, hU, hA, isMsgLabel, isFollowRec, List.filter_cons,
            List.takeWhile_cons, List.dropWhile_cons, ih]
        · simp [parseLoop, hU, hA, isMsgLabel, List.filter_cons, ih]

theorem parseLoop_false (startId : Nat) (l : List TrajRecord) :
    parseLoop startId false l = specWalk startId l := by
  induction l with
  | nil => rfl
  | cons r rest ih =>
      by_cases hU : r.label = "UserText"
      · by_cases hS : r.id = startId
        · simp [parseLoop, specWalk, hU, hS, isMsgLabel, isStartRec, List.filter_cons,
            List.dropWhile_cons, parseLoop_true]
        · simp only [specWalk, isMsgLabel] at ih
          simp [parseLoop, specWalk, hU, hS, isMsgLabel, isStartRec, List.filter_cons,
            List.dropWhile_cons, ih]
      · by_cases hA : r.label = "AgentText"
        · simp only [specWalk, isMsgLabel] at ih
          simp [parseLoop, specWalk, hU, hA, isMsgLabel, isStartRec, List.filter_cons,
            List.dropWhile_cons, ih]
        · simp only [specWalk, isMsgLabel] at ih
          simp [parseLoop, specWalk, hU, hA, isMsgLabel, List.filter_cons, ih]

theorem insertB_mem {α : Type} (le : α → α → Bool) (x a : α) (l : List α) :
    a ∈ insertB le x l ↔ a = x ∨ a ∈ l := by
  induction l with
  | nil => simp [insertB]
  | cons y ys ih =>
      by_cases hc : le x y
      · simp [insertB, hc]
      · simp [insertB, hc, ih]
        tauto

theorem sortB_mem {α : Type} (le : α → α → Bool) (a : α) (l : List α) :
    a ∈ sortB le l ↔ a ∈ l := by
  induction l with
  | nil => simp [sortB]
  | cons y ys ih =>
      simp [sortB, insertB_mem, ih]

theorem insertB_length {α : Type} (le : α → α → Bool) (x : α) (l : List α) :
    (insertB le x l).length = l.length + 1 := by
  induction l with
  | nil => rfl
  | cons y ys ih =>
      by_cases hc : le x y
      · simp [insertB, hc]
      · simp [insertB, hc, ih]

theorem sortB_length {α : Type} (le : α → α → Bool) (l : List α) :
    (sortB le l).length = l.length := by
  induction l with
  | nil => rfl
  | cons y ys ih => simp [sortB, insertB_length, ih]

theorem insertB_sorted {α : Type} (le : α → α → Bool)
    (htot : ∀ a b, le a b || le b a)
    (htrans : ∀ a b c, le a b = true → le b c = true → le a c = true)
    (x : α) (l : List α)
    (hl : l.Pairwise (fun a b => le a b = true)) :
    (insertB le x l).Pairwise (fun a b => le a b = true) := by
  induction l with
  | nil => simp [insertB]
  | cons y ys ih =>
      rw [List.pairwise_cons] at hl
      by_cases hc : le x y
      · rw [insertB, if_pos hc, List.pairwise_cons]
        refine ⟨?_, List.pairwise_cons.mpr hl⟩
        intro b hb
        rcases List.mem_cons.mp hb with h | h
        · rw [h]; exact hc
        · exact htrans x y b hc (hl.1 b h)
      · rw [insertB, if_neg hc, List.pairwise_cons]
        constructor
        · intro b hb
          rcases (insertB_mem le x b ys).mp hb with h | h
          · rw [h]
            have h2 := htot x y
            rcases Bool.or_eq_true_iff.mp h2 with h' | h'
            · exact absurd h' hc
            · exact h'
          · exact hl.1 b h
        · exact ih hl.2

theorem sortB_sorted {α : Type} (le : α → α → Bool)
    (htot : ∀ a b, le a b || le b a)
    (htrans : ∀ a b c, le a b = true → le b c = true → le a c = true)
    (l : List α) :
    (sortB le l).Pairwise (fun a b => le a b = true) := by
  induction l with
  | nil => simp [sortB]
  | cons y ys ih => exact insertB_sorted le htot htrans y (sortB le ys) ih

theorem dedupByKeyAux_sublist {α β : Type} [DecidableEq β] (key : α → β)
    (seen : List β) (l : List α) : List.Sublist (dedupByKeyAux key seen l) l := by
  induction l generalizing seen with
  | nil => exact List.Sublist.refl _
  | cons x xs ih =>
      by_cases hc : key x ∈ seen
      · rw [dedupByKeyAux, if_pos hc]
        exact (ih seen).cons x
      · rw [dedupByKeyAux, if_neg hc]
        exact (ih (key x :: seen)).cons₂ x

theorem getTrajectoryNodes_sorted (g : GraphState) (startId maxDepth : Nat) :
    (getTrajectoryNodes g startId maxDepth).Pairwise
      (fun a b => a.createdAt ≤ b.createdAt) := by
  unfold getTrajectoryNodes
  cases hf : g.userTexts.find? (fun u => u.id = startId) with
  | none => simp
  | some start =>
      simp only
      have hs := sortB_sorted (fun a b => Nat.ble a.createdAt b.createdAt)
        (fun a b => by
          rcases Nat.le_total a.createdAt b.createdAt with h | h
          · simp [Nat.ble_eq, h]
          · simp [Nat.ble_eq, h])
        (fun a b c h1 h2 => by
          rw [Nat.ble_eq] at h1 h2 ⊢
          omega)
        (((msgNodes g).filter
          (fun n => MsgNode.nid n ∈ reachIds g.messageEdges startId (min maxDepth 30)
            ∧ MsgNode.conv n = start.conversationId)).map recordOfNode)
      have hs' := hs.imp (fun hab => Nat.le_of_ble_eq_true hab)
      exact List.Pairwise.sublist
        (dedupByKeyAux_sublist (fun (r : TrajRecord) => r.id) [] _) hs'

theorem parseLoop_sublist (startId : Nat) (b : Bool) (l : List TrajRecord) :
    List.Sublist (parseLoop startId b l) (l.map stepOf) := by
  induction l generalizing b with
  | nil => exact List.Sublist.refl _
  | cons r rest ih =>
      by_cases hU : r.label = "UserText"
      · by_cases hS : r.id = startId
        · rw [parseLoop, if_pos hU, if_pos hS, List.map_cons]
          exact (ih true).cons₂ _
        · cases b with
          | true =>
              rw [parseLoop, if_pos hU, if_neg hS, if_pos rfl, List.map_cons]
              exact (List.nil_sublist _).cons₂ _
          | false =>
              rw [parseLoop, if_pos hU, if_neg hS]
              simp only [Bool.false_eq_true, if_false, List.map_cons]
              exact (ih false).cons _
      · by_cases hA : r.label = "AgentText"
        · cases b with
          | true =>
              rw [parseLoop, if_neg hU, if_pos hA, if_pos rfl, List.map_cons]
              exact (ih true).cons₂ _
          | false =>
              rw [parseLoop, if_neg hU, if_pos hA]
              simp only [Bool.false_eq_true, if_false, List.map_cons]
              exact (ih false).cons _
        · rw [parseLoop, if_neg hU, if_neg hA, List.map_cons]
          exact (ih b).cons _

theorem mem_msgNodes_user {g : GraphState} {u : UserTextN} (h : u ∈ g.userTexts) :
    MsgNode.user u ∈ msgNodes g := by
  unfold msgNodes
  exact List.mem_append_left _ (List.mem_map_of_mem _ h)

/-- Under the id-injectivity invariant, looking a stored UserText up by its
id returns that UserText. -/
theorem find_user_of_inv {s : TMState} (hinv : MsgInv s) {u : UserTextN}
    (hmem : u ∈ s.graph.userTexts) :
    s.graph.userTexts.find? (fun x => x.id = u.id) = some u := by
  cases hf : s.graph.userTexts.find? (fun x => x.id = u.id) with
  | none =>
      exfalso
      have := List.find?_eq_none.mp hf u hmem
      simp at this
  | some u' =>
      have hmem' := List.mem_of_find?_eq_some hf
      have hid : u'.id = u.id := by
        have := List.find?_some hf
        simpa using this
      have := hinv.2.1 (MsgNode.user u') (mem_msgNodes_user hmem')
        (MsgNode.user u) (mem_msgNodes_user hmem) hid
      rw [MsgNode.user.injEq] at this
      rw [this]

/-- A node with no outgoing MESSAGE edges reaches only itself. -/
theorem reachSet_no_out (edges : List MessageEdgeM) (x : Nat)
    (h : ∀ e ∈ edges, e.sourceId ≠ x) (d : Nat) :
    reachSet edges [x] d = [x] := by
  induction d with
  | zero => rfl
  | succ d ih =>
      rw [reachSet, ih]
      unfold stepIds
      have hfm : edges.filterMap
          (fun e => if e.sourceId ∈ [x] then some e.targetId else none) = [] := by
        rw [List.filterMap_eq_nil]
        intro e he
        rw [if_neg]
        simp [h e he]
      rw [hfm]
      rfl

theorem dedupByKeyAux_all_seen {α β : Type} [DecidableEq β] (key : α → β)
    (seen : List β) (l : List α) (h : ∀ y ∈ l, key y ∈ seen) :
    dedupByKeyAux key seen l = [] := by
  induction l generalizing seen with
  | nil => rfl
  | cons y ys ih =>
      rw [dedupByKeyAux, if_pos (h y (List.mem_cons_self _ _))]
      exact ih seen (fun z hz => h z (List.mem_cons_of_mem _ hz))

theorem dedupByKey_const {α β : Type} [DecidableEq β] (key : α → β) (x : α) :
    ∀ (l : List α), l ≠ [] → (∀ y ∈ l, y = x) → dedupByKey key l = [x]
  | [], hne, _ => absurd rfl hne
  | y :: ys, _, hall => by
      have hy : y = x := hall y (List.mem_cons_self _ _)
      unfold dedupByKey dedupByKeyAux
      rw [if_neg (List.not_mem_nil _)]
      rw [hy]
      congr 1
      apply dedupByKeyAux_all_seen
      intro z hz
      rw [hall z (List.mem_cons_of_mem _ hz)]
      exact List.mem_cons_self _ _

/-- **C4** (amended).  `get_trajectory` walks the records returned by
`get_trajectory_nodes` — the UserText/AgentText nodes of the start node's
conversation reachable via MESSAGE edges within `min(max_depth, 30)` hops,
ordered by `created_at` ascending — starting at the start UserText and
stopping after emitting the first subsequent UserText, exactly as the
spec-modelled walk `specWalk` prescribes; the emitted steps are ordered by
`created_at` ascending, and a stored UserText with no outgoing MESSAGE
edge yields exactly its own single step.  (The frozen claim's unbounded
reachability fails beyond the 30-hop cap.) -/
theorem claim_c4_trajectory_amended :
    (∀ (startId : Nat) (records : List TrajRecord),
        (parseTrajectory startId records).steps = specWalk startId records)
    ∧ (∀ (nid : Nat) (cfg : RetrievalCfg) (s : TMState),
        ((getTrajectoryH nid cfg s).1.steps).Pairwise
          (fun a b => a.createdAt ≤ b.createdAt))
    ∧ (∀ (c : Ctx) (s : TMState), Reachable c s →
        ∀ u ∈ s.graph.userTexts,
        (∀ e ∈ s.graph.messageEdges, e.sourceId ≠ u.id) →
        ∀ (cfg : RetrievalCfg),
          (getTrajectoryH u.id cfg s).1.steps
            = [stepOf (recordOfNode (MsgNode.user u))]) := by
  refine ⟨fun startId records => parseLoop_false startId records, ?_, ?_⟩
  · intro nid cfg s
    have hrec := getTrajectoryNodes_sorted s.graph nid cfg.trajectoryMaxDepth
    have hmap : ((getTrajectoryNodes s.graph nid cfg.trajectoryMaxDepth).map
        stepOf).Pairwise (fun a b => a.createdAt ≤ b.createdAt) := by
      rw [List.pairwise_map]
      exact hrec
    exact List.Pairwise.sublist (parseLoop_sublist nid false _) hmap
  · intro c s hre u hmem hnoedge cfg
    have hinv := (inv_of_reachable hre).2
    have hfind := find_user_of_inv hinv hmem
    have hreach : reachIds s.graph.messageEdges u.id (min cfg.trajectoryMaxDepth 30)
        = [u.id] := by
      unfold reachIds
      exact reachSet_no_out _ _ hnoedge _
    have hrecs : getTrajectoryNodes s.graph u.id cfg.trajectoryMaxDepth
        = [recordOfNode (MsgNode.user u)] := by
      unfold getTrajectoryNodes
      rw [hfind]
      simp only [hreach]
      apply dedupByKey_const
      · intro h0
        have hl0 := congrArg List.length h0
        rw [sortB_length, List.length_map, List.length_nil] at hl0
        have hmemf : MsgNode.user u ∈ (msgNodes s.graph).filter
            (fun n => decide (MsgNode.nid n ∈ [u.id]
              ∧ MsgNode.conv n = u.conversationId)) := by
          apply List.mem_filter.mpr
          exact ⟨mem_msgNodes_user hmem, by simp [MsgNode.nid, MsgNode.conv]⟩
        rw [List.eq_nil_of_length_eq_zero hl0] at hmemf
        exact absurd hmemf (List.not_mem_nil _)
      · intro y hy
        have hy' := (sortB_mem _ _ _).mp hy
        obtain ⟨n, hn, hmap⟩ := List.mem_map.mp hy'
        have hf := List.mem_filter.mp hn
        have hid : MsgNode.nid n = u.id := by
          have h2 := hf.2
          simp only [decide_eq_true_eq, List.mem_singleton] at h2
          exact h2.1
        have hnu : n = MsgNode.user u :=
          hinv.2.1 n hf.1 (MsgNode.user u) (mem_msgNodes_user hmem) hid
        rw [← hmap, hnu]
    show parseLoop u.id false (getTrajectoryNodes s.graph u.id cfg.trajectoryMaxDepth)
        = [stepOf (recordOfNode (MsgNode.user u))]
    rw [hrecs]
    simp [parseLoop, recordOfNode]

set_option maxRecDepth 40000 in
/-- **C4** (counterexample to the frozen claim).  In a conversation whose
follow-up UserText (id 64) sits 32 MESSAGE hops after the start UserText
(id 0), the follow-up is reachable via MESSAGE edges and stored, yet
`get_trajectory` (max depth 40) returns only the 31 nodes within the
30-hop Kùzu cap: the follow-up is missing and the walk ends on an
AgentText instead of ending at and including the next UserText. -/
theorem claim_c4_counterexample :
    longState.graph.userTexts.map (fun u => u.id) = [0, 64]
    ∧ 64 ∈ reachIds longState.graph.messageEdges 0 40
    ∧ ((getTrajectoryH 0 { trajectoryMaxDepth := 40 } longState).1.steps.map
        (fun st => st.nodeId)).length = 31
    ∧ 64 ∉ (getTrajectoryH 0 { trajectoryMaxDepth := 40 } longState).1.steps.map
        (fun st => st.nodeId)
    ∧ (getTrajectoryH 0 { trajectoryMaxDepth := 40 } longState).1.steps.getLast?.map
        (fun st => st.nodeType) = some "AgentText" := by
  refine ⟨?_, ?_, ?_, ?_, ?_⟩ <;> decide

theorem claim_c4_witness :
    (getTrajectoryH 0 {} wSUser).1.steps
      = [stepOf (recordOfNode (MsgNode.user
          ⟨0, "hi", "cB", 0, 0, 0⟩))] :=
  claim_c4_trajectory_amended.2.2 exampleCtx wSUser
    (Reachable.step "cB" ⟨.user, "hi", [], none⟩ Reachable.init)
    ⟨0, "hi", "cB", 0, 0, 0⟩ (by decide) (by decide) {}

theorem claim_c2_witness :
    (addMessage exampleCtx "cA"
        ⟨.assistant, "again", [⟨"c2", "read_file", [("path", .jstr "/tmp/a")]⟩], none⟩
        wS3).2.graph.versions = wS3.graph.versions :=
  (claim_c2_same_hash_dedup.1 exampleCtx wS3
    (Reachable.step "cA" wMsgTool2 (Reachable.step "cA" wMsgAsst1
      (Reachable.step "cA" wMsgTool1 Reachable.init)))
    "cA" "again" ⟨"c2", "read_file", [("path", .jstr "/tmp/a")]⟩ "file:///tmp/a" "AAA"
    ⟨1, "file:///tmp/a", some "sha-AAA", "cA", 1, 1⟩
    rfl rfl (by decide) rfl rfl).2.1

end TMem
